import Mathlib

/-!
Shallow embedding of the faigz-rs minimal FASTA index implementation
(src/faigz_minimal.c, src/faigz_minimal.h) and verification of the
specification claims about it.

Files are modelled as `List Char` (byte streams of text files; the C code
reads them through `fgets`/`fgetc`, which are binary-safe, and through
C-string functions, which stop at NUL — where a C-string operation is
involved the theorems assume NUL-free content, and the BGZF window is
truncated at the first NUL explicitly).  Machine integers (`uint64_t`,
`hts_pos_t = int64_t`, `int`) are modelled as `Nat`/`Int`; conversions that
can wrap are made explicit (`toU64`, `toU32`, `wrap64`).
-/

namespace Faigz

/-- One `(compressed_offset, uncompressed_offset)` pair of the `.gzi`
block-offset table (`gzi_entry_t`). -/
structure GziEntry where
  compressed_offset : Nat
  uncompressed_offset : Nat
deriving Repr, DecidableEq

/-- The zero entry, used as the out-of-range default for table indexing. -/
def e0 : GziEntry := ⟨0, 0⟩

/-- Uncompressed offset of entry `i` of the table (0 when out of range). -/
def uncompAt (es : List GziEntry) (i : Nat) : Nat :=
  (es.getD i e0).uncompressed_offset

/-- Compressed offset of entry `i` of the table (0 when out of range). -/
def compAt (es : List GziEntry) (i : Nat) : Nat :=
  (es.getD i e0).compressed_offset

/-- The binary-search loop of `find_bgzf_block` (faigz_minimal.c:576-588):
`left`/`right` are the C `int` bounds, `best` the index of the best
entry found so far; `mid = left + (right - left) / 2` is written inline. -/
def findLoop (es : List GziEntry) (x : Nat) (left right : Int) (best : Nat) : Nat :=
  if h : left ≤ right then
    if uncompAt es (left + (right - left) / 2).toNat ≤ x then
      findLoop es x ((left + (right - left) / 2) + 1) right
        (left + (right - left) / 2).toNat
    else
      findLoop es x left ((left + (right - left) / 2) - 1) best
  else
    compAt es best
termination_by (right + 1 - left).toNat
decreasing_by
  · omega
  · omega

/-- Model of `find_bgzf_block` (faigz_minimal.c:572-591): floor binary
search over the block-offset table. -/
def find_bgzf_block (es : List GziEntry) (x : Nat) : Nat :=
  if es.length = 0 then 0
  else findLoop es x 0 ((es.length : Int) - 1) 0

/-- Specification-level floor index: the largest index `j ≤ k` whose
uncompressed offset is `≤ x`, or 0 when there is none. -/
def lastLE (es : List GziEntry) (x : Nat) : Nat → Nat
  | 0 => 0
  | k + 1 => if uncompAt es (k + 1) ≤ x then k + 1 else lastLE es x k

/-- The table is sorted ascending by uncompressed offset (the documented
invariant of the `.gzi` table). -/
def SortedU (es : List GziEntry) : Prop :=
  ∀ j, j < es.length → ∀ i, i ≤ j → uncompAt es i ≤ uncompAt es j

/-- The compressed offsets are non-decreasing across the table (the other
half of the monotonic-block-index invariant). -/
def MonoC (es : List GziEntry) : Prop :=
  ∀ j, j < es.length → ∀ i, i ≤ j → compAt es i ≤ compAt es j

instance (es : List GziEntry) : Decidable (SortedU es) := by
  unfold SortedU; infer_instance

instance (es : List GziEntry) : Decidable (MonoC es) := by
  unfold MonoC; infer_instance

lemma lastLE_le (es : List GziEntry) (x : Nat) : ∀ k, lastLE es x k ≤ k := by
  intro k
  induction k with
  | zero => simp [lastLE]
  | succ k ih =>
    unfold lastLE
    split
    · exact Nat.le_refl _
    · exact Nat.le_trans ih (Nat.le_succ k)

lemma lastLE_eq_zero (es : List GziEntry) (x : Nat) (k : Nat)
    (h : ∀ j, j ≤ k → x < uncompAt es j) : lastLE es x k = 0 := by
  induction k with
  | zero => simp [lastLE]
  | succ k ih =>
    unfold lastLE
    rw [if_neg (Nat.not_le_of_lt (h (k + 1) (Nat.le_refl _)))]
    exact ih fun j hj => h j (Nat.le_trans hj (Nat.le_succ k))

lemma lastLE_eq_of (es : List GziEntry) (x : Nat) (k b : Nat)
    (hbk : b ≤ k) (hb : uncompAt es b ≤ x)
    (habove : ∀ j, b < j → j ≤ k → x < uncompAt es j) :
    lastLE es x k = b := by
  induction k with
  | zero => interval_cases b; simp [lastLE]
  | succ k ih =>
    unfold lastLE
    by_cases hbeq : b = k + 1
    · rw [if_pos (hbeq ▸ hb)]
      exact hbeq.symm
    · rw [if_neg (Nat.not_le_of_lt (habove (k + 1) (by omega) (Nat.le_refl _)))]
      exact ih (by omega) fun j hbj hjk => habove j hbj (Nat.le_trans hjk (Nat.le_succ k))

lemma lastLE_mono (es : List GziEntry) (x1 x2 : Nat) (hx : x1 ≤ x2) :
    ∀ k, lastLE es x1 k ≤ lastLE es x2 k := by
  intro k
  induction k with
  | zero => simp [lastLE]
  | succ k ih =>
    unfold lastLE
    by_cases h1 : uncompAt es (k + 1) ≤ x1
    · rw [if_pos h1, if_pos (Nat.le_trans h1 hx)]
    · rw [if_neg h1]
      by_cases h2 : uncompAt es (k + 1) ≤ x2
      · rw [if_pos h2]
        exact Nat.le_trans (lastLE_le es x1 k) (Nat.le_succ k)
      · rw [if_neg h2]; exact ih

/-- Exit state of the binary search: when `right` has crossed below `left`
with the loop invariant intact, `best` holds the floor index. -/
lemma findLoop_exit (es : List GziEntry) (x : Nat) (left right : Int) (best : Nat)
    (hstop : ¬ left ≤ right)
    (h0 : 0 ≤ left) (hlr : left - 1 ≤ right) (hrn : right < (es.length : Int))
    (hleft : ∀ j : Nat, (j : Int) < left → uncompAt es j ≤ x)
    (hright : ∀ j : Nat, right < (j : Int) → j < es.length → x < uncompAt es j)
    (hbest : best = (left - 1).toNat) :
    findLoop es x left right best = compAt es (lastLE es x (es.length - 1)) := by
  rw [findLoop, dif_neg hstop]
  have hexit : right = left - 1 := by omega
  by_cases hl : left = 0
  · have hbest0 : best = 0 := by omega
    have hfloor : lastLE es x (es.length - 1) = 0 := by
      cases hn : es.length with
      | zero => simp [lastLE]
      | succ n =>
        apply lastLE_eq_zero
        intro j hj
        exact hright j (by omega) (by omega)
    rw [hbest0, hfloor]
  · have hbpos : (best : Int) = left - 1 := by omega
    have hbn : best < es.length := by omega
    have hfloor : lastLE es x (es.length - 1) = best := by
      apply lastLE_eq_of
      · omega
      · exact hleft best (by omega)
      · intro j hbj hjk
        exact hright j (by omega) (by omega)
    rw [hfloor]

/-- Loop invariant of the binary search: starting from a state where
everything strictly left of `left` is `≤ x`, everything strictly right of
`right` is `> x`, and `best` records `left - 1` (clamped at 0), the loop
returns the compressed offset of the specification floor index. -/
lemma findLoop_eq (es : List GziEntry) (x : Nat) (hs : SortedU es) :
    ∀ fuel : Nat, ∀ left right : Int, ∀ best : Nat,
      (right + 1 - left).toNat ≤ fuel →
      0 ≤ left → left - 1 ≤ right → right < (es.length : Int) →
      (∀ j : Nat, (j : Int) < left → uncompAt es j ≤ x) →
      (∀ j : Nat, right < (j : Int) → j < es.length → x < uncompAt es j) →
      best = (left - 1).toNat →
      findLoop es x left right best
        = compAt es (lastLE es x (es.length - 1)) := by
  intro fuel
  induction fuel with
  | zero =>
    intro left right best hfuel h0 hlr hrn hleft hright hbest
    exact findLoop_exit es x left right best (by omega) h0 hlr hrn hleft hright hbest
  | succ fuel ih =>
    intro left right best hfuel h0 hlr hrn hleft hright hbest
    by_cases hgo : left ≤ right
    · rw [findLoop, dif_pos hgo]
      have hmid0 : 0 ≤ left + (right - left) / 2 := by omega
      have hmidl : left ≤ left + (right - left) / 2 := by omega
      have hmidr : left + (right - left) / 2 ≤ right := by omega
      by_cases hc : uncompAt es (left + (right - left) / 2).toNat ≤ x
      · rw [if_pos hc]
        apply ih
        · omega
        · omega
        · omega
        · exact hrn
        · intro j hj
          by_cases hjl : (j : Int) < left
          · exact hleft j hjl
          · have hjmid : j ≤ (left + (right - left) / 2).toNat := by omega
            have hmidn : (left + (right - left) / 2).toNat < es.length := by omega
            exact Nat.le_trans (hs _ hmidn j hjmid) hc
        · exact hright
        · omega
      · rw [if_neg hc]
        apply ih
        · omega
        · exact h0
        · omega
        · omega
        · exact hleft
        · intro j hj hjn
          by_cases hjr : right < (j : Int)
          · exact hright j hjr hjn
          · have hmidj : (left + (right - left) / 2).toNat ≤ j := by omega
            have hxlt : x < uncompAt es (left + (right - left) / 2).toNat :=
              Nat.lt_of_not_le hc
            exact Nat.lt_of_lt_of_le hxlt (hs j hjn _ hmidj)
        · exact hbest
    · exact findLoop_exit es x left right best hgo h0 hlr hrn hleft hright hbest

/-- Characterization of `find_bgzf_block` on a sorted table: it returns the
compressed offset of the floor index `lastLE` (and 0 on the empty table). -/
lemma find_bgzf_block_eq (es : List GziEntry) (x : Nat) (hs : SortedU es) :
    find_bgzf_block es x
      = if es.length = 0 then 0 else compAt es (lastLE es x (es.length - 1)) := by
  unfold find_bgzf_block
  by_cases hn : es.length = 0
  · rw [if_pos hn, if_pos hn]
  · rw [if_neg hn, if_neg hn]
    apply findLoop_eq es x hs ((es.length : Int) - 1 + 1 - 0).toNat
    · omega
    · omega
    · omega
    · omega
    · intro j hj; omega
    · intro j hj hjn; omega
    · omega

/-- Model of `faidx1_t` (faigz_minimal.h:34-40).  All integer fields are
unsigned in C (`uint32_t`/`uint64_t`) except `id` (an `int` assigned from a
non-negative counter), so they are modelled as `Nat`. -/
structure Faidx1 where
  id : Nat
  line_len : Nat
  line_blen : Nat
  len : Nat
  seq_offset : Nat
  qual_offset : Nat
deriving Repr, DecidableEq

/-- Model of `hash_get` (faigz_minimal.c:42-49): a linear scan over the
entry array, first match wins. -/
def hash_get : List (List Char × Faidx1) → List Char → Option Faidx1
  | [], _ => none
  | (k, v) :: t, key => if k = key then some v else hash_get t key

/-- Model of `faidx_meta_t` (faigz_minimal.h:55-72); the mutex and the
path strings play no role in the verified behavior. -/
structure FaidxMeta where
  n : Nat
  names : List (List Char)
  hash : List (List Char × Faidx1)
  is_bgzf : Bool
  gzi_index : Option (List GziEntry)
  ref_count : Int
deriving Repr, DecidableEq

/-- Two's-complement conversion of a `uint64_t` value into `int64_t`
(the assignment `p_end_i = entry->len`). -/
def wrap64 (n : Int) : Int := (n + 2 ^ 63) % 2 ^ 64 - 2 ^ 63

/-- Coordinate adjustment of `p_beg_i` (faigz_minimal.c:365). -/
def clampBeg (b : Int) : Int := if b < 0 then 0 else b

/-- Coordinate adjustment of `p_end_i` (faigz_minimal.c:366): when negative
or above the record length it becomes the record length; the comparison
`p_end_i > entry->len` is performed after the usual C conversion of the
non-negative `int64_t` to `uint64_t`. -/
def clampEnd (entry : Faidx1) (e : Int) : Int :=
  if e < 0 ∨ entry.len < e.toNat then wrap64 (entry.len : Int) else e

lemma wrap64_le_self (n : Nat) : wrap64 (n : Int) ≤ (n : Int) := by
  unfold wrap64; omega

lemma wrap64_eq_self (n : Nat) (h : n < 2 ^ 63) : wrap64 (n : Int) = (n : Int) := by
  unfold wrap64; omega

/-- The uncompressed-path skip loop (faigz_minimal.c:484-491): consume the
stream until `k` non-terminator characters have been skipped (newlines and
carriage returns do not count toward the position). -/
def skipChars : List Char → Nat → List Char
  | s, 0 => s
  | [], _ + 1 => []
  | c :: s, k + 1 =>
    if c = '\n' then skipChars s (k + 1)
    else if c = '\r' then skipChars s (k + 1)
    else skipChars s k

/-- The uncompressed-path read loop (faigz_minimal.c:494-503): emit up to
`k` characters, eliding terminators and stopping at a record boundary
marker (`>` or `+`) or end of file. -/
def readSeq : List Char → Nat → List Char
  | _, 0 => []
  | [], _ + 1 => []
  | c :: s, k + 1 =>
    if c = '\n' ∨ c = '\r' then readSeq s (k + 1)
    else if c = '>' ∨ c = '+' then []
    else c :: readSeq s k

/-- Model of `bgzf_read_block` (faigz_minimal.c:593-613): regardless of the
requested compressed offset it seeks the decompressing stream back to
position 0 (`gzseek(fp, 0, SEEK_SET)`) and reads `buffer_size - 1`
decompressed bytes from the start. -/
def bgzf_read_block (u : List Char) (coffset : Nat) (buffer_size : Nat) : List Char :=
  u.take (buffer_size - 1)

/-- Model of C `strstr`: returns the suffix of the haystack starting at the
first occurrence of the pattern, or `none`. -/
def strstr : List Char → List Char → Option (List Char)
  | [], pat => if pat.isPrefixOf ([] : List Char) then some [] else none
  | c :: t, pat => if pat.isPrefixOf (c :: t) then some (c :: t) else strstr t pat

/-- Model of `strchr(s, '\n')`: the suffix starting at the first newline. -/
def strchrNl : List Char → Option (List Char)
  | [] => none
  | c :: s => if c = '\n' then some (c :: s) else strchrNl s

/-- The compressed-path skip loop (faigz_minimal.c:444-453): the pointer
advances on every iteration, the position only on characters outside
`{'\n', '\r', '>', '+'}`; returns the rest of the window and the reached
position. -/
def skipB (p_beg : Int) : List Char → Int → List Char × Int
  | [], pos => ([], pos)
  | c :: s, pos =>
    if pos < p_beg then
      if c ≠ '\n' ∧ c ≠ '\r' ∧ c ≠ '>' ∧ c ≠ '+' then skipB p_beg s (pos + 1)
      else skipB p_beg s pos
    else (c :: s, pos)

/-- The compressed-path read loop (faigz_minimal.c:456-469): emit while
fewer than `seq_len` characters were produced and the position is below
`p_end`, eliding terminators, stopping at `>`/`+` or the end of the
window. -/
def readSeqB (seq_len p_end : Int) : List Char → Int → Int → List Char
  | [], _, _ => []
  | c :: s, read_len, pos =>
    if read_len < seq_len ∧ pos < p_end then
      if c = '\n' ∨ c = '\r' then readSeqB seq_len p_end s read_len pos
      else if c = '>' ∨ c = '+' then []
      else c :: readSeqB seq_len p_end s (read_len + 1) (pos + 1)
    else []

/-- Model of `faidx_reader_fetch_seq` (faigz_minimal.c:357-509).  `file` is
the contents of the plain stream (`reader->fp`), `ucontent` the decompressed
contents of the compressed stream (`reader->gzfp`).  The C-string scan of
the decompressed window stops at the first NUL byte, hence the `takeWhile`
truncation of the window before the `strstr`/skip/read phase. -/
def faidx_reader_fetch_seq (meta : FaidxMeta) (file ucontent : List Char)
    (c_name : List Char) (p_beg_i p_end_i : Int) : Option (List Char) :=
  match hash_get meta.hash c_name with
  | none => none
  | some entry =>
    let p_beg := clampBeg p_beg_i
    let p_end := clampEnd entry p_end_i
    if p_beg ≥ p_end then none
    else
      let seq_len := p_end - p_beg
      if meta.is_bgzf then
        match meta.gzi_index with
        | none => none
        | some gzi =>
          let compressed_offset :=
            if entry.seq_offset > 1000 then find_bgzf_block gzi entry.seq_offset else 0
          let block := bgzf_read_block ucontent compressed_offset 65536
          if block.length = 0 then none
          else
            let cblock := block.takeWhile (fun c => c != Char.ofNat 0)
            match strstr cblock ('>' :: c_name) with
            | none => none
            | some seq_start =>
              match strchrNl seq_start with
              | none => none
              | some line_end =>
                let sp := skipB p_beg line_end.tail 0
                some (readSeqB seq_len p_end sp.1 0 sp.2)
      else
        let rest := skipChars (file.drop entry.seq_offset) p_beg.toNat
        some (readSeq rest seq_len.toNat)

/-- The residues of a stream: all characters with line terminators elided. -/
def elide (s : List Char) : List Char := s.filter (fun c => c != '\n' && c != '\r')

lemma elide_nil : elide [] = [] := rfl

lemma elide_cons_term {c : Char} (t : List Char) (h : c = '\n' ∨ c = '\r') :
    elide (c :: t) = elide t := by
  rcases h with h | h <;> subst h <;> simp [elide]

lemma elide_cons_keep {c : Char} (t : List Char) (h1 : c ≠ '\n') (h2 : c ≠ '\r') :
    elide (c :: t) = c :: elide t := by
  simp [elide, h1, h2]

/-- Skipping `k` position characters drops exactly `k` residues. -/
lemma elide_skipChars : ∀ (s : List Char) (k : Nat),
    elide (skipChars s k) = (elide s).drop k := by
  intro s
  induction s with
  | nil =>
    intro k
    cases k <;> simp [skipChars, elide]
  | cons c t ih =>
    intro k
    cases k with
    | zero => simp [skipChars]
    | succ k =>
      by_cases h1 : c = '\n'
      · rw [skipChars, if_pos h1, elide_cons_term t (Or.inl h1), ih]
      · by_cases h2 : c = '\r'
        · rw [skipChars, if_neg h1, if_pos h2, elide_cons_term t (Or.inr h2), ih]
        · rw [skipChars, if_neg h1, if_neg h2, elide_cons_keep t h1 h2,
            List.drop_succ_cons, ih]

/-- The read loop emits exactly the first `m` residues, provided none of
them is a record boundary marker. -/
lemma readSeq_eq : ∀ (s : List Char) (m : Nat),
    (∀ c ∈ (elide s).take m, ¬(c = '>' ∨ c = '+')) →
    readSeq s m = (elide s).take m := by
  intro s
  induction s with
  | nil =>
    intro m _
    cases m <;> simp [readSeq, elide]
  | cons c t ih =>
    intro m hmk
    cases m with
    | zero => simp [readSeq]
    | succ m =>
      by_cases hterm : c = '\n' ∨ c = '\r'
      · rw [elide_cons_term t hterm] at hmk
        rw [readSeq, if_pos hterm, elide_cons_term t hterm]
        exact ih (m + 1) hmk
      · push_neg at hterm
        have hel : elide (c :: t) = c :: elide t := elide_cons_keep t hterm.1 hterm.2
        rw [hel, List.take_succ_cons] at hmk
        have hcm : ¬(c = '>' ∨ c = '+') := hmk c (List.mem_cons_self _ _)
        have hmk' : ∀ x ∈ (elide t).take m, ¬(x = '>' ∨ x = '+') := by
          intro x hx
          exact hmk x (List.mem_cons_of_mem _ hx)
        rw [readSeq, if_neg (by simp [hterm.1, hterm.2]), if_neg hcm, hel,
          List.take_succ_cons, ih m hmk']

/-- The uncompressed read loop never emits more than `m` characters. -/
lemma readSeq_length_le : ∀ (s : List Char) (m : Nat), (readSeq s m).length ≤ m := by
  intro s
  induction s with
  | nil => intro m; cases m <;> simp [readSeq]
  | cons c t ih =>
    intro m
    cases m with
    | zero => simp [readSeq]
    | succ m =>
      rw [readSeq]
      split
      · exact ih (m + 1)
      · split
        · simp
        · simpa using Nat.succ_le_succ (ih m)

/-- The compressed read loop never emits more than `seq_len - read_len`
characters. -/
lemma readSeqB_length_le (seq_len p_end : Int) :
    ∀ (s : List Char) (read_len pos : Int),
      (readSeqB seq_len p_end s read_len pos).length ≤ (seq_len - read_len).toNat := by
  intro s
  induction s with
  | nil => intro rl pos; simp [readSeqB]
  | cons c t ih =>
    intro rl pos
    rw [readSeqB]
    split
    · rename_i hcond
      split
      · exact ih rl pos
      · split
        · simp
        · have := ih (rl + 1) (pos + 1)
          simp only [List.length_cons]
          omega
    · simp

/-- The compressed read loop started at `read_len = 0` never emits more
than `seq_len` characters. -/
lemma readSeqB_length_le0 (seq_len p_end : Int) (s : List Char) (pos : Int) :
    (readSeqB seq_len p_end s 0 pos).length ≤ seq_len.toNat := by
  have h := readSeqB_length_le seq_len p_end s 0 pos
  simpa using h

/-- Commutation of `drop` and `take` used to place the fetched slice inside
the record's residue prefix. -/
lemma drop_take_comm {α : Type} : ∀ (l : List α) (b m : Nat),
    (l.drop b).take m = (l.take (b + m)).drop b := by
  intro l
  induction l with
  | nil => intro b m; simp
  | cons c t ih =>
    intro b m
    cases b with
    | zero => simp
    | succ b =>
      simp only [List.drop_succ_cons]
      rw [ih b m]
      have : b + 1 + m = (b + m) + 1 := by omega
      rw [this, List.take_succ_cons, List.drop_succ_cons]

lemma mem_take_mono {α : Type} (l : List α) (a : α) (m n : Nat) (h : m ≤ n)
    (ha : a ∈ l.take m) : a ∈ l.take n := by
  have : l.take m = (l.take n).take m := by
    rw [List.take_take, Nat.min_eq_left h]
  rw [this] at ha
  exact List.mem_of_mem_take ha

lemma clampEnd_le_len (entry : Faidx1) (e : Int) :
    clampEnd entry e ≤ (entry.len : Int) := by
  unfold clampEnd
  split
  · exact wrap64_le_self entry.len
  · rename_i h
    push_neg at h
    omega

/-- C1. For a consistent record (the stream holds at least `len` residues
past `seq_offset` and none of the first `len` residues is a boundary
marker) and any in-range request `0 ≤ begin < end ≤ length`, the
uncompressed fetch path returns exactly the requested residue slice:
residues `begin..end-1` with terminators elided, of length `end - begin`. -/
theorem C1_fetch_uncompressed_exact (meta : FaidxMeta) (file u name : List Char)
    (entry : Faidx1) (beg pend : Int)
    (hbg : meta.is_bgzf = false)
    (hh : hash_get meta.hash name = some entry)
    (h0 : 0 ≤ beg) (hlt : beg < pend) (hle : pend ≤ (entry.len : Int))
    (hav : entry.len ≤ (elide (file.drop entry.seq_offset)).length)
    (hmk : ∀ c ∈ (elide (file.drop entry.seq_offset)).take entry.len,
      ¬(c = '>' ∨ c = '+')) :
    faidx_reader_fetch_seq meta file u name beg pend
      = some (((elide (file.drop entry.seq_offset)).drop beg.toNat).take (pend - beg).toNat)
    ∧ (((elide (file.drop entry.seq_offset)).drop beg.toNat).take (pend - beg).toNat).length
      = (pend - beg).toNat := by
  have hcb : clampBeg beg = beg := by unfold clampBeg; omega
  have hce : clampEnd entry pend = pend := by
    unfold clampEnd
    rw [if_neg]
    push_neg
    omega
  have hsum : beg.toNat + (pend - beg).toNat = pend.toNat := by omega
  have hpn : pend.toNat ≤ entry.len := by omega
  constructor
  · simp only [faidx_reader_fetch_seq, hh, hcb, hce, hbg]
    rw [if_neg (by omega), if_neg (by simp)]
    have hmk2 : ∀ c ∈ (elide (skipChars (file.drop entry.seq_offset) beg.toNat)).take
        (pend - beg).toNat, ¬(c = '>' ∨ c = '+') := by
      intro c hc
      rw [elide_skipChars, drop_take_comm, hsum] at hc
      exact hmk c (mem_take_mono _ c _ _ hpn (List.mem_of_mem_drop hc))
    rw [readSeq_eq _ _ hmk2, elide_skipChars]
  · rw [List.length_take, List.length_drop]
    omega

def w1meta : FaidxMeta :=
  ⟨1, [['s', '1']], [(['s', '1'], ⟨0, 5, 4, 8, 4, 0⟩)], false, none, 1⟩

def w1file : List Char := ">s1\nACGT\nTGCA\n".toList

theorem C1_witness :
    faidx_reader_fetch_seq w1meta w1file [] ['s', '1'] 1 5 = some ['C', 'G', 'T', 'T'] := by
  have h := C1_fetch_uncompressed_exact w1meta w1file [] ['s', '1'] ⟨0, 5, 4, 8, 4, 0⟩ 1 5
    rfl (by decide) (by decide) (by decide) (by decide) (by decide) (by decide)
  rw [h.1]
  decide

def c2meta : FaidxMeta :=
  ⟨1, [['s']], [(['s'], ⟨0, 3, 2, 2, 3, 0⟩)], false, none, 1⟩

/-- C2 counterexample.  The claim says a call with `end < 0` always yields
NotFound, but the code replaces a negative `end` by the record length
(faigz_minimal.c:366), so `fetch("s", 0, -1)` on a 2-residue record returns
the whole non-empty sequence. -/
theorem C2_counterexample :
    faidx_reader_fetch_seq c2meta (">s\nAC\n".toList) [] ['s'] 0 (-1) = some ['A', 'C']
    ∧ some ['A', 'C'] ≠ (none : Option (List Char)) := by
  constructor
  · decide
  · decide

/-- C2 amended.  The code clamps `begin` below by 0 and replaces `end` by
the record length when `end` is negative or above the length; whenever
`begin ≥ end` after that adjustment the fetch returns NotFound, and in
particular `begin > length`, or `0 ≤ end ≤ begin`, always yields NotFound
(a negative `end` does not). -/
theorem C2_clamp_notfound (meta : FaidxMeta) (file u name : List Char)
    (beg pend : Int) (entry : Faidx1)
    (hh : hash_get meta.hash name = some entry) :
    (clampEnd entry pend ≤ clampBeg beg →
      faidx_reader_fetch_seq meta file u name beg pend = none)
    ∧ ((entry.len : Int) < beg →
      faidx_reader_fetch_seq meta file u name beg pend = none)
    ∧ (0 ≤ pend → pend ≤ beg →
      faidx_reader_fetch_seq meta file u name beg pend = none) := by
  have hmain : clampEnd entry pend ≤ clampBeg beg →
      faidx_reader_fetch_seq meta file u name beg pend = none := by
    intro h
    simp only [faidx_reader_fetch_seq, hh]
    rw [if_pos h]
  refine ⟨hmain, fun hbig => hmain ?_, fun he0 heb => hmain ?_⟩
  · have h1 : clampEnd entry pend ≤ (entry.len : Int) := clampEnd_le_len entry pend
    have h2 : clampBeg beg = beg := by unfold clampBeg; omega
    omega
  · have h2 : clampBeg beg = beg := by unfold clampBeg; omega
    have h1 : clampEnd entry pend ≤ beg := by
      unfold clampEnd
      split
      · rename_i h
        have := wrap64_le_self entry.len
        omega
      · omega
    omega

theorem C2_witness :
    faidx_reader_fetch_seq c2meta (">s\nAC\n".toList) [] ['s'] 5 2 = none :=
  (C2_clamp_notfound c2meta (">s\nAC\n".toList) [] ['s'] 5 2 ⟨0, 3, 2, 2, 3, 0⟩
    (by decide)).2.2 (by decide) (by decide)

/-- C9. The compressed-path window is always read from uncompressed
offset 0: `bgzf_read_block` ignores its compressed-offset argument (it
seeks to 0 and reads one fixed-size window), so the offset translated by
`find_bgzf_block` never affects which bytes are scanned, and a record
whose header does not occur in the first 65535-byte window is never
found. -/
theorem C9_single_window :
    (∀ (u : List Char) (c1 c2 bs : Nat),
      bgzf_read_block u c1 bs = bgzf_read_block u c2 bs)
    ∧ (∀ (u : List Char) (c bs : Nat), bgzf_read_block u c bs = u.take (bs - 1))
    ∧ (∀ (meta : FaidxMeta) (file u name : List Char) (beg pend : Int) (entry : Faidx1),
        hash_get meta.hash name = some entry →
        meta.is_bgzf = true →
        strstr ((u.take 65535).takeWhile (fun c => c != Char.ofNat 0)) ('>' :: name) = none →
        faidx_reader_fetch_seq meta file u name beg pend = none) := by
  refine ⟨fun u c1 c2 bs => rfl, fun u c bs => rfl, ?_⟩
  intro meta file u name beg pend entry hh hbg hstr
  simp only [faidx_reader_fetch_seq, hh, hbg]
  split
  · rfl
  · rw [if_pos trivial]
    cases meta.gzi_index with
    | none => rfl
    | some g =>
      simp only [bgzf_read_block]
      have h65 : (65536 - 1 : Nat) = 65535 := rfl
      rw [h65]
      split
      · rfl
      · rw [hstr]

def c9meta : FaidxMeta :=
  ⟨1, [['q']], [(['q'], ⟨0, 2, 1, 1, 2, 0⟩)], true, some [⟨0, 0⟩], 1⟩

theorem C9_witness :
    faidx_reader_fetch_seq c9meta [] "ACGT".toList ['q'] 0 1 = none :=
  C9_single_window.2.2 c9meta [] "ACGT".toList ['q'] 0 1 ⟨0, 2, 1, 1, 2, 0⟩
    (by decide) rfl (by decide)

/-- C10. Whenever the fetch returns a buffer, its reported length is at
most `end - begin` after coordinate adjustment (the early stops at end of
data or at a `>`/`+` boundary marker only shorten the result); the model
returns exactly the emitted characters, mirroring the NUL-terminated
buffer of length `*len`. -/
theorem C10_length_bound (meta : FaidxMeta) (file u name : List Char)
    (beg pend : Int) (entry : Faidx1) (r : List Char)
    (hh : hash_get meta.hash name = some entry)
    (hr : faidx_reader_fetch_seq meta file u name beg pend = some r) :
    r.length ≤ (clampEnd entry pend - clampBeg beg).toNat := by
  simp only [faidx_reader_fetch_seq, hh, bgzf_read_block] at hr
  split at hr
  · exact absurd hr (by simp)
  · split at hr
    · split at hr
      · exact absurd hr (by simp)
      · split at hr
        · exact absurd hr (by simp)
        · split at hr
          · exact absurd hr (by simp)
          · split at hr
            · exact absurd hr (by simp)
            · rw [Option.some_inj] at hr
              subst hr
              exact readSeqB_length_le0 _ _ _ _
    · rw [Option.some_inj] at hr
      subst hr
      exact readSeq_length_le _ _

theorem C10_witness :
    (['A', 'C'] : List Char).length
      ≤ (clampEnd ⟨0, 3, 2, 2, 3, 0⟩ 2 - clampBeg 0).toNat :=
  C10_length_bound c2meta (">s\nAC\n".toList) [] ['s'] 0 2 ⟨0, 3, 2, 2, 3, 0⟩
    ['A', 'C'] (by decide) (by decide)

/-- Properties of the floor index when some entry is below the target:
it is itself below the target and dominates every such index. -/
lemma lastLE_good (es : List GziEntry) (x : Nat) :
    ∀ k i, i ≤ k → uncompAt es i ≤ x →
      uncompAt es (lastLE es x k) ≤ x
      ∧ ∀ j, j ≤ k → uncompAt es j ≤ x → j ≤ lastLE es x k := by
  intro k
  induction k with
  | zero =>
    intro i hi hx
    interval_cases i
    exact ⟨by simpa [lastLE] using hx, fun j hj _ => by omega⟩
  | succ k ih =>
    intro i hi hx
    by_cases hc : uncompAt es (k + 1) ≤ x
    · refine ⟨by rw [lastLE, if_pos hc]; exact hc, fun j hj _ => ?_⟩
      rw [lastLE, if_pos hc]
      exact hj
    · have hik : i ≤ k := by
        rcases Nat.lt_or_ge i (k + 1) with h | h
        · omega
        · exfalso
          apply hc
          have hik1 : i = k + 1 := by omega
          rw [← hik1]
          exact hx
      have h2 := ih i hik hx
      rw [lastLE, if_neg hc]
      refine ⟨h2.1, fun j hj hjx => ?_⟩
      have hjk : j ≤ k := by
        rcases Nat.lt_or_ge j (k + 1) with h | h
        · omega
        · exfalso
          apply hc
          have hjk1 : j = k + 1 := by omega
          rw [← hjk1]
          exact hjx
      exact h2.2 j hjk hjx

def w3tbl : List GziEntry := [⟨5, 10⟩]

/-- C3 counterexample.  When the target precedes the first entry's
uncompressed offset, `find_bgzf_block` returns the FIRST entry's compressed
offset (the `best` index never moves from 0), not 0: on the sorted
one-entry table [(compressed 5, uncompressed 10)] with target 0 the search
returns 5. -/
theorem C3_counterexample :
    find_bgzf_block w3tbl 0 = 5 ∧ find_bgzf_block w3tbl 0 ≠ 0 := by
  have h : find_bgzf_block w3tbl 0 = 5 := by
    rw [find_bgzf_block_eq w3tbl 0 (by decide)]
    decide
  exact ⟨h, by rw [h]; decide⟩

/-- C3 amended.  On a table sorted ascending by uncompressed offset,
`find_bgzf_block` returns 0 on the empty table; when the target precedes
the first entry it returns the FIRST entry's compressed offset (which is 0
only when that entry's compressed offset is 0); and when some entry's
uncompressed offset is `≤ x` it returns the compressed offset of the
greatest such entry, the latest one winning ties. -/
theorem C3_locate_floor (es : List GziEntry) (x : Nat) (hs : SortedU es) :
    (es = [] → find_bgzf_block es x = 0)
    ∧ (0 < es.length → x < uncompAt es 0 → find_bgzf_block es x = compAt es 0)
    ∧ (∀ i, i < es.length → uncompAt es i ≤ x →
        ∃ b, b < es.length ∧ find_bgzf_block es x = compAt es b
          ∧ uncompAt es b ≤ x
          ∧ ∀ j, j < es.length → uncompAt es j ≤ x → j ≤ b) := by
  refine ⟨?_, ?_, ?_⟩
  · intro h
    subst h
    rfl
  · intro hn hx
    rw [find_bgzf_block_eq es x hs, if_neg (by omega)]
    have h0 : lastLE es x (es.length - 1) = 0 := by
      apply lastLE_eq_zero
      intro j hj
      exact Nat.lt_of_lt_of_le hx (hs j (by omega) 0 (Nat.zero_le j))
    rw [h0]
  · intro i hi hx
    have hg := lastLE_good es x (es.length - 1) i (by omega) hx
    refine ⟨lastLE es x (es.length - 1), ?_, ?_, hg.1, ?_⟩
    · have := lastLE_le es x (es.length - 1)
      omega
    · rw [find_bgzf_block_eq es x hs, if_neg (by omega)]
    · intro j hj hjx
      exact hg.2 j (by omega) hjx

def w3btbl : List GziEntry := [⟨0, 0⟩, ⟨100, 50⟩, ⟨200, 50⟩, ⟨300, 90⟩]

theorem C3_witness :
    ∃ b, b < w3btbl.length ∧ find_bgzf_block w3btbl 60 = compAt w3btbl b
      ∧ uncompAt w3btbl b ≤ 60
      ∧ ∀ j, j < w3btbl.length → uncompAt w3btbl j ≤ 60 → j ≤ b :=
  (C3_locate_floor w3btbl 60 (by decide)).2.2 1 (by decide) (by decide)

/-- C4. On a monotonic block index (uncompressed offsets sorted ascending,
compressed offsets non-decreasing), `find_bgzf_block` is monotonic in the
target offset. -/
theorem C4_locate_monotone (es : List GziEntry) (x1 x2 : Nat)
    (hs : SortedU es) (hm : MonoC es) (hx : x1 ≤ x2) :
    find_bgzf_block es x1 ≤ find_bgzf_block es x2 := by
  rw [find_bgzf_block_eq es x1 hs, find_bgzf_block_eq es x2 hs]
  by_cases hn : es.length = 0
  · rw [if_pos hn, if_pos hn]
  · rw [if_neg hn, if_neg hn]
    have h1 := lastLE_le es x1 (es.length - 1)
    have h2 := lastLE_le es x2 (es.length - 1)
    exact hm (lastLE es x2 (es.length - 1)) (by omega)
      (lastLE es x1 (es.length - 1)) (lastLE_mono es x1 x2 hx (es.length - 1))

theorem C4_witness :
    find_bgzf_block w3btbl 3 ≤ find_bgzf_block w3btbl 70 :=
  C4_locate_monotone w3btbl 3 70 (by decide) (by decide) (by decide)

/-- One record of the `.fai` directory as written/parsed: the
`(name, length, seq_offset, line_bases, line_bytes)` tuple. -/
structure FaiTuple where
  name : List Char
  len : Nat
  seq_offset : Nat
  line_blen : Nat
  line_len : Nat
deriving Repr, DecidableEq

/-- Model of C `fgets(line, 1024, fp)`: read at most `n` characters (the
buffer keeps one byte for the NUL), stopping after the first newline;
returns the chunk and the remaining stream. -/
def fgetsGo : Nat → List Char → List Char × List Char
  | 0, s => ([], s)
  | _ + 1, [] => ([], [])
  | n + 1, c :: s =>
    if c = '\n' then ([c], s)
    else
      let p := fgetsGo n s
      (c :: p.1, p.2)

/-- One `fgets` call with the 1024-byte buffer used throughout the C code. -/
def fgets1023 (s : List Char) : List Char × List Char := fgetsGo 1023 s

lemma fgetsGo_append : ∀ (n : Nat) (s : List Char),
    (fgetsGo n s).1 ++ (fgetsGo n s).2 = s := by
  intro n
  induction n with
  | zero => intro s; simp [fgetsGo]
  | succ n ih =>
    intro s
    cases s with
    | nil => simp [fgetsGo]
    | cons c t =>
      rw [fgetsGo]
      split
      · rename_i h
        subst h
        simp
      · simp [ih t]

lemma fgetsGo_fst_length_le : ∀ (n : Nat) (s : List Char),
    (fgetsGo n s).1.length ≤ n := by
  intro n
  induction n with
  | zero => intro s; simp [fgetsGo]
  | succ n ih =>
    intro s
    cases s with
    | nil => simp [fgetsGo]
    | cons c t =>
      rw [fgetsGo]
      split
      · simp
      · simpa using Nat.succ_le_succ (ih t)

lemma fgetsGo_snd_length_le : ∀ (n : Nat) (s : List Char),
    (fgetsGo n s).2.length ≤ s.length := by
  intro n
  induction n with
  | zero => intro s; simp [fgetsGo]
  | succ n ih =>
    intro s
    cases s with
    | nil => simp [fgetsGo]
    | cons c t =>
      rw [fgetsGo]
      split
      · simp
      · simpa using Nat.le_trans (ih t) (Nat.le_succ t.length)

lemma fgets1023_snd_length_lt (s : List Char) (h : ¬ s = []) :
    (fgets1023 s).2.length < s.length := by
  unfold fgets1023
  cases s with
  | nil => exact absurd rfl h
  | cons c t =>
    rw [fgetsGo]
    split
    · simp
    · have := fgetsGo_snd_length_le 1022 t
      simp only [List.length_cons]
      omega

/-- The chunk stream of a file as produced by the `while (fgets(...))`
loops: successive 1023-byte-bounded reads until the stream is empty. -/
def chunksOf (s : List Char) : List (List Char) :=
  if h : s = [] then [] else (fgets1023 s).1 :: chunksOf (fgets1023 s).2
termination_by s.length
decreasing_by exact fgets1023_snd_length_lt s h

/-- The first line of a stream, up to and including its newline (the whole
stream when it has no newline). -/
def lineOf : List Char → List Char
  | [] => []
  | c :: s => if c = '\n' then ['\n'] else c :: lineOf s

/-- The stream after its first line. -/
def restOf : List Char → List Char
  | [] => []
  | c :: s => if c = '\n' then s else restOf s

lemma restOf_length_le : ∀ (s : List Char), (restOf s).length ≤ s.length := by
  intro s
  induction s with
  | nil => simp [restOf]
  | cons c t ih =>
    rw [restOf]
    split
    · simp
    · simpa using Nat.le_trans ih (Nat.le_succ t.length)

lemma restOf_length_lt (s : List Char) (h : ¬ s = []) :
    (restOf s).length < s.length := by
  cases s with
  | nil => exact absurd rfl h
  | cons c t =>
    rw [restOf]
    split
    · simp
    · have := restOf_length_le t
      simp only [List.length_cons]
      omega

/-- The stream split into its lines (each line keeps its terminator). -/
def splitLines (s : List Char) : List (List Char) :=
  if h : s = [] then [] else lineOf s :: splitLines (restOf s)
termination_by s.length
decreasing_by exact restOf_length_lt s h

/-- Number of sequence characters of a chunk: everything except `'\n'` and
`'\r'` (the counting loop at faigz_minimal.c:123-128). -/
def basesIn (l : List Char) : Nat := (elide l).length

/-- The characters that terminate a record name in `create_fai_index`
(faigz_minimal.c:113): space, tab and newline. -/
def isNameStop (c : Char) : Bool := c = ' ' || c = '\t' || c = '\n'

/-- The record name of a header chunk: everything after the `>` up to the
first space/tab/newline. -/
def extractName (l : List Char) : List Char :=
  (l.drop 1).takeWhile (fun c => !isNameStop c)

/-- The scan state of `create_fai_index` (faigz_minimal.c:85-91). -/
structure ScanState where
  seq_name : List Char
  seq_len : Nat
  seq_offset : Nat
  line_blen : Nat
  line_len : Nat
  in_sequence : Bool
  current_offset : Nat
deriving Repr, DecidableEq

def initScan : ScanState := ⟨[], 0, 0, 0, 0, false, 0⟩

/-- The record flushed by `create_fai_index` when a new header is met or
the scan ends: written only when a record is open and its name is
non-empty (faigz_minimal.c:98,143). -/
def pendingTuple (st : ScanState) : List FaiTuple :=
  if st.in_sequence && !st.seq_name.isEmpty then
    [⟨st.seq_name, st.seq_len, st.seq_offset, st.line_blen, st.line_len⟩]
  else []

/-- One iteration of the `create_fai_index` scan loop on one `fgets` chunk
(faigz_minimal.c:93-140): emitted records and the next state.  The name is
truncated to 255 characters (the `seq_name[256]` buffer); line geometry is
captured from the first counted body chunk. -/
def stepChunk (st : ScanState) (l : List Char) : List FaiTuple × ScanState :=
  if l.head? = some '>' then
    (pendingTuple st,
      ⟨(extractName l).take 255, 0, st.current_offset + l.length, 0, 0, true,
        st.current_offset + l.length⟩)
  else if st.in_sequence = true ∧ l.head? ≠ some '\n' ∧ l.head? ≠ some '\r' then
    ([], ⟨st.seq_name, st.seq_len + basesIn l, st.seq_offset,
      if st.line_blen = 0 then basesIn l else st.line_blen,
      if st.line_blen = 0 then l.length else st.line_len, st.in_sequence,
      st.current_offset + l.length⟩)
  else
    ([], ⟨st.seq_name, st.seq_len, st.seq_offset, st.line_blen, st.line_len,
      st.in_sequence, st.current_offset + l.length⟩)

/-- The whole scan loop of `create_fai_index` over a chunk stream, with the
final flush of the open record. -/
def scanLines : List (List Char) → ScanState → List FaiTuple
  | [], st => pendingTuple st
  | l :: ls, st => (stepChunk st l).1 ++ scanLines ls (stepChunk st l).2

/-- Decimal digit character (what `fprintf` emits for one digit). -/
def digitChar (d : Nat) : Char := Char.ofNat (48 + d)

/-- Decimal rendering with explicit fuel (structural so that concrete
values compute); `natDec` supplies sufficient fuel. -/
def natDecGo : Nat → Nat → List Char
  | 0, _ => []
  | fuel + 1, n =>
    if n < 10 then [digitChar n] else natDecGo fuel (n / 10) ++ [digitChar (n % 10)]

/-- Decimal rendering of a natural number, as `fprintf` `%lu`/`%u` does. -/
def natDec (n : Nat) : List Char := natDecGo (n + 1) n

/-- One line of the `.fai` file as `create_fai_index` writes it
(faigz_minimal.c:99-100): `name\tlen\toffset\tline_blen\tline_len\n`. -/
def writeLine (t : FaiTuple) : List Char :=
  t.name ++ '\t' :: (natDec t.len ++ '\t' :: (natDec t.seq_offset ++ '\t' ::
    (natDec t.line_blen ++ '\t' :: (natDec t.line_len ++ ['\n']))))

/-- Model of `create_fai_index` (faigz_minimal.c:74-151): the text of the
produced `.fai` file — the scan records, serialized in order. -/
def create_fai_index (src : List Char) : List Char :=
  ((scanLines (chunksOf src) initScan).map writeLine).flatten

/-- The C `isspace` set used by `atoll`/`atoi`. -/
def isSpaceCh (c : Char) : Bool :=
  c = ' ' || c = '\t' || c = '\n' || c = '\x0b' || c = '\x0c' || c = '\r'

/-- Digit-run accumulator of `atoll`: consume leading decimal digits. -/
def digitsVal : List Char → Nat → Nat
  | [], acc => acc
  | c :: t, acc =>
    if '0' ≤ c ∧ c ≤ '9' then digitsVal t (acc * 10 + (c.toNat - 48)) else acc

/-- Model of C `atoll`/`atoi`: skip whitespace, optional sign, digits. -/
def atoll (s : List Char) : Int :=
  match s.dropWhile isSpaceCh with
  | '-' :: t => -(digitsVal t 0 : Int)
  | '+' :: t => (digitsVal t 0 : Int)
  | t => (digitsVal t 0 : Int)

/-- Conversion of a C signed value into `uint64_t` (the stores into
`val.len`/`val.seq_offset`). -/
def toU64 (i : Int) : Nat := (i % (2 ^ 64 : Int)).toNat

/-- Conversion of a C signed value into `uint32_t` (the stores into
`val.line_blen`/`val.line_len`). -/
def toU32 (i : Int) : Nat := (i % (2 ^ 32 : Int)).toNat

/-- Model of one `strtok(s, delims)` step: skip leading delimiters, return
`none` at the end of the string, else the token and the remaining tail. -/
def tokenize (delims : List Char) (s : List Char) : Option (List Char × List Char) :=
  let s1 := s.dropWhile (fun c => delims.contains c)
  if s1.isEmpty then none
  else some (s1.takeWhile (fun c => !delims.contains c),
    s1.dropWhile (fun c => !delims.contains c))

/-- Parse of one directory line by `load_fai_index` (faigz_minimal.c:161-169,
187-193): five `strtok` fields (tab-delimited, the fifth also stopping at a
newline), numeric fields through `atoll`/`atoi` with the C stores into
unsigned fields. -/
def parseFaiLine (l : List Char) : Option FaiTuple :=
  match tokenize ['\t'] l with
  | none => none
  | some (name, r1) =>
    match tokenize ['\t'] r1 with
    | none => none
    | some (len_str, r2) =>
      match tokenize ['\t'] r2 with
      | none => none
      | some (offset_str, r3) =>
        match tokenize ['\t'] r3 with
        | none => none
        | some (blen_str, r4) =>
          match tokenize ['\t', '\n'] r4 with
          | none => none
          | some (llen_str, _) =>
            some ⟨name, toU64 (atoll len_str), toU64 (atoll offset_str),
              toU32 (atoll blen_str), toU32 (atoll llen_str)⟩

/-- The `faidx1_t` entry stored for a parsed tuple with ordinal `idx`
(faigz_minimal.c:187-193; `qual_offset` is set to 0). -/
def tupleEntry (t : FaiTuple) (idx : Nat) : Faidx1 :=
  ⟨idx, t.line_len, t.line_blen, t.len, t.seq_offset, 0⟩

/-- The directory tuple held by one loaded `(name, entry)` pair. -/
def entryTuple (p : List Char × Faidx1) : FaiTuple :=
  ⟨p.1, p.2.len, p.2.seq_offset, p.2.line_blen, p.2.line_len⟩

/-- Model of the `load_fai_index` loop (faigz_minimal.c:160-201): read
`fgets` chunks, skip the ones with fewer than five fields, store the rest
with dense ordinals starting at `idx`. -/
def load_fai_chunks (s : List Char) (idx : Nat) : List (List Char × Faidx1) :=
  if h : s = [] then []
  else
    match parseFaiLine (fgets1023 s).1 with
    | none => load_fai_chunks (fgets1023 s).2 idx
    | some t => (t.name, tupleEntry t idx) :: load_fai_chunks (fgets1023 s).2 (idx + 1)
termination_by s.length
decreasing_by
  · exact fgets1023_snd_length_lt s h
  · exact fgets1023_snd_length_lt s h

/-- The metadata object assembled by `faidx_meta_load` (faigz_minimal.c:209-276)
from the loaded directory: name array and hash share the entries, the
reference count starts at 1, and the block-offset index is only consulted
for compressed sources. -/
def buildMeta (entries : List (List Char × Faidx1)) (is_bgzf : Bool)
    (gzi : Option (List GziEntry)) : FaidxMeta :=
  ⟨entries.length, entries.map (fun p => p.1), entries, is_bgzf,
    if is_bgzf then gzi else none, 1⟩

/-- Model of `faidx_meta_load` on the success path: `fai_file` is the
contents of the `.fai` file (`none` when it cannot be opened), `gzi_load`
the result of `load_gzi_index` (`none` when absent or unreadable — which is
non-fatal, faigz_minimal.c:268-273). -/
def faidx_meta_load_model (fai_file : Option (List Char)) (is_bgzf : Bool)
    (gzi_load : Option (List GziEntry)) : Option FaidxMeta :=
  match fai_file with
  | none => none
  | some content => some (buildMeta (load_fai_chunks content 0) is_bgzf gzi_load)

/-- Model of `faidx_meta_nseq` (faigz_minimal.c:615-617). -/
def faidx_meta_nseq (m : FaidxMeta) : Nat := m.n

/-- Model of `faidx_meta_has_seq` (faigz_minimal.c:630-635). -/
def faidx_meta_has_seq (m : FaidxMeta) (name : List Char) : Bool :=
  (hash_get m.hash name).isSome

/-- Model of `faidx_meta_seq_len` (faigz_minimal.c:623-628). -/
def faidx_meta_seq_len (m : FaidxMeta) (name : List Char) : Int :=
  match hash_get m.hash name with
  | some e => (e.len : Int)
  | none => -1

/-- Model of `faidx_meta_ref` (faigz_minimal.c:278-286): increment the
count, return the same object. -/
def faidx_meta_ref (m : FaidxMeta) : FaidxMeta :=
  { m with ref_count := m.ref_count + 1 }

/-- The reference-count operations exercised on one metadata object. -/
inductive MetaOp where
  | share
  | release
deriving Repr, DecidableEq

/-- The reference-count trace semantics of `faidx_meta_ref` /
`faidx_meta_destroy` (faigz_minimal.c:278-317): each share increments the
count, each release decrements it and frees the object exactly when the
decremented count is `≤ 0`; returns the final count and how many times the
object was freed. -/
def runOps : List MetaOp → Int → Int × Nat
  | [], rc => (rc, 0)
  | MetaOp.share :: ops, rc => runOps ops (rc + 1)
  | MetaOp.release :: ops, rc =>
    ((runOps ops (rc - 1)).1, (if rc - 1 ≤ 0 then 1 else 0) + (runOps ops (rc - 1)).2)

lemma dropWhileLenLe {α : Type} (p : α → Bool) :
    ∀ (l : List α), (l.dropWhile p).length ≤ l.length := by
  intro l
  induction l with
  | nil => simp [List.dropWhile]
  | cons c t ih =>
    rw [List.dropWhile]
    split
    · simpa using Nat.le_trans ih (Nat.le_succ t.length)
    · simp

/-- A header line: first character is the record-start marker. -/
def isHeader (l : List Char) : Bool := l.head? == some '>'

/-- Total residue count of a record body. -/
def recordLen (body : List (List Char)) : Nat := (body.map basesIn).sum

/-- Line geometry from the first body line of a record: its residue count
and its byte length ((0, 0) when the record has no body). -/
def recordGeo (body : List (List Char)) : Nat × Nat :=
  match body with
  | [] => (0, 0)
  | l :: _ => (basesIn l, l.length)

/-- Modelled from the spec's description of the directory round-trip
reference: a direct scan of the source at line granularity — one record per
header line, name truncated at the first whitespace, length counting all
non-terminator body characters, line geometry from the first body line
(a record's body is every line up to the next header). -/
def directScan : List (List Char) → Nat → List FaiTuple
  | [], _ => []
  | l :: ls, off =>
    if isHeader l then
      ⟨extractName l, recordLen (ls.takeWhile (fun m => !isHeader m)),
        off + l.length,
        (recordGeo (ls.takeWhile (fun m => !isHeader m))).1,
        (recordGeo (ls.takeWhile (fun m => !isHeader m))).2⟩
        :: directScan (ls.dropWhile (fun m => !isHeader m))
          (off + l.length + ((ls.takeWhile (fun m => !isHeader m)).map List.length).sum)
    else directScan ls (off + l.length)
termination_by lines _ => lines.length
decreasing_by
  · have := dropWhileLenLe (fun m => !isHeader m) ls
    simp only [List.length_cons]
    omega
  · simp

lemma lineOf_append_restOf : ∀ (s : List Char), lineOf s ++ restOf s = s := by
  intro s
  induction s with
  | nil => rfl
  | cons c t ih =>
    rw [lineOf, restOf]
    by_cases h : c = '\n'
    · rw [if_pos h, if_pos h, h]
      rfl
    · rw [if_neg h, if_neg h]
      simpa using ih

lemma lineOf_ne_nil (s : List Char) (h : ¬ s = []) : ¬ lineOf s = [] := by
  cases s with
  | nil => exact absurd rfl h
  | cons c t =>
    rw [lineOf]
    split <;> simp

lemma splitLines_nil : splitLines [] = [] := by
  rw [splitLines, dif_pos rfl]

lemma splitLines_cons (s : List Char) (h : ¬ s = []) :
    splitLines s = lineOf s :: splitLines (restOf s) := by
  rw [splitLines, dif_neg h]

lemma chunksOf_nil : chunksOf [] = [] := by
  rw [chunksOf, dif_pos rfl]

lemma chunksOf_cons (s : List Char) (h : ¬ s = []) :
    chunksOf s = (fgets1023 s).1 :: chunksOf (fgets1023 s).2 := by
  rw [chunksOf, dif_neg h]

/-- When the first line fits the buffer, `fgets` returns exactly that line
and leaves exactly the rest of the stream. -/
lemma fgetsGo_of_short : ∀ (s : List Char) (n : Nat), (lineOf s).length ≤ n →
    fgetsGo n s = (lineOf s, restOf s) := by
  intro s
  induction s with
  | nil =>
    intro n _
    cases n <;> rfl
  | cons c t ih =>
    intro n hn
    by_cases h : c = '\n'
    · subst h
      rw [lineOf, if_pos rfl] at hn ⊢
      cases n with
      | zero => simp at hn
      | succ n =>
        rw [fgetsGo, if_pos rfl, restOf, if_pos rfl]
    · rw [lineOf, if_neg h] at hn ⊢
      cases n with
      | zero => simp at hn
      | succ n =>
        rw [fgetsGo, if_neg h, restOf, if_neg h]
        have ht := ih n (by simpa using Nat.le_of_succ_le_succ hn)
        simp [ht]

lemma fgets1023_of_short (s : List Char) (h : (lineOf s).length ≤ 1023) :
    fgets1023 s = (lineOf s, restOf s) := fgetsGo_of_short s 1023 h

/-- Under the buffer bound, the chunk stream is exactly the line stream. -/
lemma chunksOf_eq_splitLines : ∀ (n : Nat) (s : List Char), s.length ≤ n →
    (∀ l ∈ splitLines s, l.length ≤ 1023) → chunksOf s = splitLines s := by
  intro n
  induction n with
  | zero =>
    intro s hs _
    have h : s = [] := by
      cases s with
      | nil => rfl
      | cons c t => simp at hs
    subst h
    rw [chunksOf_nil, splitLines_nil]
  | succ n ih =>
    intro s hs hlen
    by_cases h : s = []
    · subst h
      rw [chunksOf_nil, splitLines_nil]
    · rw [chunksOf_cons s h, splitLines_cons s h]
      have hline : (lineOf s).length ≤ 1023 := by
        apply hlen
        rw [splitLines_cons s h]
        exact List.mem_cons_self _ _
      rw [fgets1023_of_short s hline]
      have hrest : (restOf s).length ≤ n := by
        have := restOf_length_lt s h
        omega
      rw [ih (restOf s) hrest]
      intro l hl
      apply hlen
      rw [splitLines_cons s h]
      exact List.mem_cons_of_mem _ hl

/-- Every line produced by `splitLines` is non-empty. -/
lemma mem_splitLines_ne_nil : ∀ (n : Nat) (s : List Char), s.length ≤ n →
    ∀ l ∈ splitLines s, ¬ l = [] := by
  intro n
  induction n with
  | zero =>
    intro s hs l hl
    have h : s = [] := by
      cases s with
      | nil => rfl
      | cons c t => simp at hs
    subst h
    rw [splitLines_nil] at hl
    simp at hl
  | succ n ih =>
    intro s hs l hl
    by_cases h : s = []
    · subst h
      rw [splitLines_nil] at hl
      simp at hl
    · rw [splitLines_cons s h] at hl
      rcases List.mem_cons.mp hl with h1 | h1
      · subst h1
        exact lineOf_ne_nil s h
      · have hrest : (restOf s).length ≤ n := by
          have := restOf_length_lt s h
          omega
        exact ih (restOf s) hrest l h1

lemma isHeader_iff (l : List Char) : isHeader l = true ↔ l.head? = some '>' := by
  simp [isHeader]

lemma pendingTuple_open (st : ScanState) (h1 : st.in_sequence = true)
    (h2 : ¬ st.seq_name = []) :
    pendingTuple st
      = [⟨st.seq_name, st.seq_len, st.seq_offset, st.line_blen, st.line_len⟩] := by
  have hc : (st.in_sequence && !st.seq_name.isEmpty) = true := by
    rw [h1]
    simp [List.isEmpty_iff, h2]
  unfold pendingTuple
  rw [if_pos hc]

lemma pendingTuple_closed (st : ScanState) (h1 : st.in_sequence = false) :
    pendingTuple st = [] := by
  unfold pendingTuple
  rw [if_neg]
  rw [h1]
  simp

lemma basesIn_pos (l : List Char) (hne : ¬ l = [])
    (h1 : ¬ l.head? = some '\n') (h2 : ¬ l.head? = some '\r') : 0 < basesIn l := by
  cases l with
  | nil => exact absurd rfl hne
  | cons c t =>
    simp only [List.head?_cons] at h1 h2
    have hc1 : c ≠ '\n' := fun h => h1 (by rw [h])
    have hc2 : c ≠ '\r' := fun h => h2 (by rw [h])
    unfold basesIn
    rw [elide_cons_keep t hc1 hc2]
    simp

lemma directScan_nil (off : Nat) : directScan [] off = [] := by
  rw [directScan]

lemma directScan_header (l : List Char) (ls : List (List Char)) (off : Nat)
    (h : isHeader l = true) :
    directScan (l :: ls) off
      = ⟨extractName l, recordLen (ls.takeWhile (fun m => !isHeader m)),
          off + l.length,
          (recordGeo (ls.takeWhile (fun m => !isHeader m))).1,
          (recordGeo (ls.takeWhile (fun m => !isHeader m))).2⟩
        :: directScan (ls.dropWhile (fun m => !isHeader m))
          (off + l.length + ((ls.takeWhile (fun m => !isHeader m)).map List.length).sum) := by
  rw [directScan, if_pos h]

lemma directScan_body (l : List Char) (ls : List (List Char)) (off : Nat)
    (h : isHeader l = false) :
    directScan (l :: ls) off = directScan ls (off + l.length) := by
  rw [directScan, if_neg]
  rw [h]
  simp

/-- The in-record loop invariant of the `create_fai_index` scan: from a
state holding an open record with a non-empty name, the scan emits that
record completed by the upcoming body lines and then behaves as the direct
scan of the remaining lines. -/
lemma scanLines_inseq : ∀ (lines : List (List Char)),
    (∀ l ∈ lines, ¬ l = []) →
    (∀ l ∈ lines, isHeader l = false → ¬ l.head? = some '\n' ∧ ¬ l.head? = some '\r') →
    (∀ l ∈ lines, isHeader l = true → ¬ extractName l = [] ∧ (extractName l).length ≤ 255) →
    ∀ (name : List Char) (len off0 blen llen curoff : Nat),
    ¬ name = [] →
    (blen = 0 → llen = 0) →
    scanLines lines ⟨name, len, off0, blen, llen, true, curoff⟩
      = ⟨name, len + recordLen (lines.takeWhile (fun m => !isHeader m)), off0,
          if blen = 0 then (recordGeo (lines.takeWhile (fun m => !isHeader m))).1 else blen,
          if blen = 0 then (recordGeo (lines.takeWhile (fun m => !isHeader m))).2 else llen⟩
        :: directScan (lines.dropWhile (fun m => !isHeader m))
          (curoff + ((lines.takeWhile (fun m => !isHeader m)).map List.length).sum) := by
  intro lines
  induction lines with
  | nil =>
    intro _ _ _ name len off0 blen llen curoff hname hbl
    rw [scanLines, pendingTuple_open _ rfl hname]
    simp only [List.takeWhile_nil, List.dropWhile_nil, directScan_nil, List.map_nil,
      List.sum_nil]
    have h1 : recordLen [] = 0 := rfl
    have h2 : recordGeo [] = (0, 0) := rfl
    rw [h1, h2]
    by_cases hb : blen = 0
    · simp [hb, hbl hb]
    · simp [hb]
  | cons l ls ih =>
    intro hne hbody hnm name len off0 blen llen curoff hname hbl
    have hnel : ¬ l = [] := hne l (List.mem_cons_self _ _)
    have hne' : ∀ m ∈ ls, ¬ m = [] := fun m hm => hne m (List.mem_cons_of_mem _ hm)
    have hbody' : ∀ m ∈ ls, isHeader m = false →
        ¬ m.head? = some '\n' ∧ ¬ m.head? = some '\r' :=
      fun m hm => hbody m (List.mem_cons_of_mem _ hm)
    have hnm' : ∀ m ∈ ls, isHeader m = true →
        ¬ extractName m = [] ∧ (extractName m).length ≤ 255 :=
      fun m hm => hnm m (List.mem_cons_of_mem _ hm)
    by_cases hH : isHeader l = true
    · have hhp : l.head? = some '>' := (isHeader_iff l).mp hH
      have hnml := hnm l (List.mem_cons_self _ _) hH
      rw [scanLines, stepChunk, if_pos hhp, pendingTuple_open _ rfl hname]
      simp only []
      have htake : (l :: ls).takeWhile (fun m => !isHeader m) = [] := by
        rw [List.takeWhile_cons, if_neg]
        rw [hH]
        simp
      have hdrop : (l :: ls).dropWhile (fun m => !isHeader m) = l :: ls := by
        rw [List.dropWhile_cons, if_neg]
        rw [hH]
        simp
      rw [htake, hdrop]
      simp only [List.map_nil, List.sum_nil, Nat.add_zero]
      have h1 : recordLen [] = 0 := rfl
      have h2 : recordGeo [] = (0, 0) := rfl
      rw [h1, h2, directScan_header l ls curoff hH]
      have htk : (extractName l).take 255 = extractName l :=
        List.take_of_length_le hnml.2
      rw [htk, ih hne' hbody' hnm' (extractName l) 0 (curoff + l.length) 0 0
        (curoff + l.length) hnml.1 (fun _ => rfl)]
      simp only [List.map_nil, List.sum_nil, Nat.add_zero, Nat.zero_add, if_pos rfl]
      by_cases hb : blen = 0
      · simp [hb, hbl hb]
      · simp [hb]
    · have hHf : isHeader l = false := by
        cases hv : isHeader l
        · rfl
        · exact absurd hv hH
      have hhp : ¬ l.head? = some '>' := fun h => hH ((isHeader_iff l).mpr h)
      have hbl2 := hbody l (List.mem_cons_self _ _) hHf
      have hbpos : 0 < basesIn l := basesIn_pos l hnel hbl2.1 hbl2.2
      rw [scanLines, stepChunk, if_neg hhp, if_pos ⟨rfl, hbl2.1, hbl2.2⟩]
      simp only [List.nil_append]
      have htake : (l :: ls).takeWhile (fun m => !isHeader m)
          = l :: ls.takeWhile (fun m => !isHeader m) := by
        rw [List.takeWhile_cons, if_pos]
        rw [hHf]
        simp
      have hdrop : (l :: ls).dropWhile (fun m => !isHeader m)
          = ls.dropWhile (fun m => !isHeader m) := by
        rw [List.dropWhile_cons, if_pos]
        rw [hHf]
        simp
      rw [htake, hdrop]
      have hbl' : (if blen = 0 then basesIn l else blen) = 0 →
          (if blen = 0 then l.length else llen) = 0 := by
        by_cases hb : blen = 0
        · rw [if_pos hb]
          omega
        · rw [if_neg hb]
          omega
      rw [ih hne' hbody' hnm' name (len + basesIn l) off0
        (if blen = 0 then basesIn l else blen)
        (if blen = 0 then l.length else llen) (curoff + l.length) hname hbl']
      have hrl : recordLen (l :: ls.takeWhile (fun m => !isHeader m))
          = basesIn l + recordLen (ls.takeWhile (fun m => !isHeader m)) := by
        unfold recordLen
        simp
      have hrg : recordGeo (l :: ls.takeWhile (fun m => !isHeader m))
          = (basesIn l, l.length) := rfl
      rw [hrl, hrg]
      have hbne : ¬ (if blen = 0 then basesIn l else blen) = 0 := by
        by_cases hb : blen = 0
        · rw [if_pos hb]
          omega
        · rw [if_neg hb]
          exact hb
      rw [if_neg hbne, if_neg hbne]
      by_cases hb : blen = 0 <;> simp [hb, Nat.add_assoc]

/-- Outside a record (or before the first header), the scan of
`create_fai_index` agrees with the direct scan. -/
lemma scanLines_outseq : ∀ (lines : List (List Char)),
    (∀ l ∈ lines, ¬ l = []) →
    (∀ l ∈ lines, isHeader l = false → ¬ l.head? = some '\n' ∧ ¬ l.head? = some '\r') →
    (∀ l ∈ lines, isHeader l = true → ¬ extractName l = [] ∧ (extractName l).length ≤ 255) →
    ∀ (off : Nat),
    scanLines lines ⟨[], 0, 0, 0, 0, false, off⟩ = directScan lines off := by
  intro lines
  induction lines with
  | nil =>
    intro _ _ _ off
    rw [scanLines, pendingTuple_closed _ rfl, directScan_nil]
  | cons l ls ih =>
    intro hne hbody hnm off
    have hne' : ∀ m ∈ ls, ¬ m = [] := fun m hm => hne m (List.mem_cons_of_mem _ hm)
    have hbody' : ∀ m ∈ ls, isHeader m = false →
        ¬ m.head? = some '\n' ∧ ¬ m.head? = some '\r' :=
      fun m hm => hbody m (List.mem_cons_of_mem _ hm)
    have hnm' : ∀ m ∈ ls, isHeader m = true →
        ¬ extractName m = [] ∧ (extractName m).length ≤ 255 :=
      fun m hm => hnm m (List.mem_cons_of_mem _ hm)
    by_cases hH : isHeader l = true
    · have hhp : l.head? = some '>' := (isHeader_iff l).mp hH
      have hnml := hnm l (List.mem_cons_self _ _) hH
      rw [scanLines, stepChunk, if_pos hhp, pendingTuple_closed _ rfl]
      simp only [List.nil_append]
      have htk : (extractName l).take 255 = extractName l :=
        List.take_of_length_le hnml.2
      rw [htk, scanLines_inseq ls hne' hbody' hnm' (extractName l) 0 (off + l.length)
        0 0 (off + l.length) hnml.1 (fun _ => rfl),
        directScan_header l ls off hH]
      simp [if_pos rfl]
    · have hHf : isHeader l = false := by
        cases hv : isHeader l
        · rfl
        · exact absurd hv hH
      have hhp : ¬ l.head? = some '>' := fun h => hH ((isHeader_iff l).mpr h)
      rw [scanLines, stepChunk, if_neg hhp, if_neg]
      · simp only [List.nil_append]
        rw [directScan_body l ls off hHf]
        exact ih hne' hbody' hnm' (off + l.length)
      · intro hcon
        exact absurd hcon.1 (by simp)

/-- Combination of the buffer-fit argument and the scan equivalence: the
records collected by `create_fai_index` are the direct-scan records. -/
lemma create_scan_eq_direct (src : List Char)
    (hlen : ∀ l ∈ splitLines src, l.length ≤ 1023)
    (hbody : ∀ l ∈ splitLines src, isHeader l = false →
      ¬ l.head? = some '\n' ∧ ¬ l.head? = some '\r')
    (hnm : ∀ l ∈ splitLines src, isHeader l = true →
      ¬ extractName l = [] ∧ (extractName l).length ≤ 255) :
    scanLines (chunksOf src) initScan = directScan (splitLines src) 0 := by
  rw [chunksOf_eq_splitLines src.length src (Nat.le_refl _) hlen]
  exact scanLines_outseq (splitLines src)
    (mem_splitLines_ne_nil src.length src (Nat.le_refl _)) hbody hnm 0

lemma mem_chunksOf_length_le : ∀ (n : Nat) (s : List Char), s.length ≤ n →
    ∀ l ∈ chunksOf s, l.length ≤ 1023 := by
  intro n
  induction n with
  | zero =>
    intro s hs l hl
    have h : s = [] := by
      cases s with
      | nil => rfl
      | cons c t => simp at hs
    subst h
    rw [chunksOf_nil] at hl
    simp at hl
  | succ n ih =>
    intro s hs l hl
    by_cases h : s = []
    · subst h
      rw [chunksOf_nil] at hl
      simp at hl
    · rw [chunksOf_cons s h] at hl
      rcases List.mem_cons.mp hl with h1 | h1
      · subst h1
        exact fgetsGo_fst_length_le 1023 s
      · have hrest : (fgets1023 s).2.length ≤ n := by
          have := fgets1023_snd_length_lt s h
          omega
        exact ih (fgets1023 s).2 hrest l h1

lemma chunksOf_sum_length : ∀ (n : Nat) (s : List Char), s.length ≤ n →
    ((chunksOf s).map List.length).sum = s.length := by
  intro n
  induction n with
  | zero =>
    intro s hs
    have h : s = [] := by
      cases s with
      | nil => rfl
      | cons c t => simp at hs
    subst h
    rw [chunksOf_nil]
    rfl
  | succ n ih =>
    intro s hs
    by_cases h : s = []
    · subst h
      rw [chunksOf_nil]
      rfl
    · rw [chunksOf_cons s h]
      have hrest : (fgets1023 s).2.length ≤ n := by
        have := fgets1023_snd_length_lt s h
        omega
      have happ : (fgets1023 s).1 ++ (fgets1023 s).2 = s := fgetsGo_append 1023 s
      simp only [List.map_cons, List.sum_cons, ih (fgets1023 s).2 hrest]
      have hsum : (fgets1023 s).1.length + (fgets1023 s).2.length = s.length := by
        rw [← List.length_append, happ]
      omega

lemma digitChar_toNat (d : Nat) (h : d < 10) : (digitChar d).toNat = 48 + d := by
  interval_cases d <;> decide

lemma digitChar_digit (d : Nat) (h : d < 10) :
    '0' ≤ digitChar d ∧ digitChar d ≤ '9' := by
  interval_cases d <;> decide

lemma digit_props (c : Char) (h : '0' ≤ c ∧ c ≤ '9') :
    isSpaceCh c = false ∧ c ≠ '\t' ∧ c ≠ '\n' ∧ c ≠ '-' ∧ c ≠ '+' := by
  obtain ⟨h1, h2⟩ := h
  have hv : 48 ≤ c.toNat ∧ c.toNat ≤ 57 := by
    exact ⟨h1, h2⟩
  refine ⟨?_, ?_, ?_, ?_, ?_⟩
  · unfold isSpaceCh
    have e1 : c ≠ ' ' := fun hc => by subst hc; simp at hv
    have e2 : c ≠ '\t' := fun hc => by subst hc; simp at hv
    have e3 : c ≠ '\n' := fun hc => by subst hc; simp at hv
    have e4 : c ≠ '\x0b' := fun hc => by subst hc; simp at hv
    have e5 : c ≠ '\x0c' := fun hc => by subst hc; simp at hv
    have e6 : c ≠ '\r' := fun hc => by subst hc; simp at hv
    simp [e1, e2, e3, e4, e5, e6]
  · exact fun hc => by subst hc; simp at hv
  · exact fun hc => by subst hc; simp at hv
  · exact fun hc => by subst hc; simp at hv
  · exact fun hc => by subst hc; simp at hv

lemma digitsVal_append_digit : ∀ (xs : List Char),
    (∀ c ∈ xs, '0' ≤ c ∧ c ≤ '9') → ∀ (d : Nat), d < 10 → ∀ (acc : Nat),
    digitsVal (xs ++ [digitChar d]) acc = 10 * digitsVal xs acc + d := by
  intro xs
  induction xs with
  | nil =>
    intro _ d hd acc
    have h1 := digitChar_digit d hd
    have h2 := digitChar_toNat d hd
    simp only [List.nil_append, digitsVal]
    rw [if_pos h1, h2]
    omega
  | cons c t ih =>
    intro hall d hd acc
    have hc := hall c (List.mem_cons_self _ _)
    rw [List.cons_append]
    simp only [digitsVal]
    rw [if_pos hc, if_pos hc]
    exact ih (fun x hx => hall x (List.mem_cons_of_mem _ hx)) d hd _

lemma natDecGo_facts : ∀ (fuel n : Nat), n < fuel →
    ¬ natDecGo fuel n = [] ∧ (∀ c ∈ natDecGo fuel n, '0' ≤ c ∧ c ≤ '9')
    ∧ digitsVal (natDecGo fuel n) 0 = n := by
  intro fuel
  induction fuel with
  | zero => intro n hn; omega
  | succ fuel ih =>
    intro n hn
    by_cases h10 : n < 10
    · rw [natDecGo, if_pos h10]
      refine ⟨by simp, ?_, ?_⟩
      · intro c hc
        rw [List.mem_singleton] at hc
        subst hc
        exact digitChar_digit n h10
      · rw [digitsVal, if_pos (digitChar_digit n h10), digitsVal,
          digitChar_toNat n h10]
        omega
    · rw [natDecGo, if_neg h10]
      have hrec : n / 10 < fuel := by omega
      obtain ⟨hne, hdig, hval⟩ := ih (n / 10) hrec
      refine ⟨by simp, ?_, ?_⟩
      · intro c hc
        rcases List.mem_append.mp hc with h1 | h1
        · exact hdig c h1
        · rw [List.mem_singleton] at h1
          subst h1
          exact digitChar_digit (n % 10) (by omega)
      · rw [digitsVal_append_digit _ hdig (n % 10) (by omega) 0, hval]
        omega

lemma natDec_facts (n : Nat) :
    ¬ natDec n = [] ∧ (∀ c ∈ natDec n, '0' ≤ c ∧ c ≤ '9')
    ∧ digitsVal (natDec n) 0 = n :=
  natDecGo_facts (n + 1) n (Nat.lt_succ_self n)

/-- `atoll` inverts the decimal rendering. -/
lemma atoll_natDec (n : Nat) : atoll (natDec n) = (n : Int) := by
  obtain ⟨hne, hdig, hval⟩ := natDec_facts n
  cases hx : natDec n with
  | nil => exact absurd hx hne
  | cons c t =>
    rw [hx] at hval hdig
    have hc : '0' ≤ c ∧ c ≤ '9' := hdig c (List.mem_cons_self _ _)
    have hp := digit_props c hc
    have hdw : List.dropWhile isSpaceCh (c :: t) = c :: t := by
      rw [List.dropWhile_cons, if_neg]
      rw [hp.1]
      simp
    unfold atoll
    rw [hdw]
    split
    · rename_i t1 heq
      exfalso
      rw [List.cons.injEq] at heq
      exact hp.2.2.2.1 heq.1
    · rename_i t1 heq
      exfalso
      rw [List.cons.injEq] at heq
      exact hp.2.2.2.2 heq.1
    · rw [hval]

lemma toU64_natDec (n : Nat) (h : n < 2 ^ 64) : toU64 (atoll (natDec n)) = n := by
  rw [atoll_natDec]
  unfold toU64
  omega

lemma toU32_natDec (n : Nat) (h : n < 2 ^ 32) : toU32 (atoll (natDec n)) = n := by
  rw [atoll_natDec]
  unfold toU32
  omega

lemma takeWhile_append_of (p : Char → Bool) : ∀ (a : List Char) (d : Char)
    (r : List Char), (∀ c ∈ a, p c = true) → p d = false →
    (a ++ d :: r).takeWhile p = a ∧ (a ++ d :: r).dropWhile p = d :: r := by
  intro a
  induction a with
  | nil =>
    intro d r _ hd
    rw [List.nil_append]
    constructor
    · rw [List.takeWhile_cons, if_neg (by rw [hd]; simp)]
    · rw [List.dropWhile_cons, if_neg (by rw [hd]; simp)]
  | cons c t ih =>
    intro d r hall hd
    have hc := hall c (List.mem_cons_self _ _)
    have iht := ih d r (fun x hx => hall x (List.mem_cons_of_mem _ hx)) hd
    constructor
    · rw [List.cons_append, List.takeWhile_cons, if_pos hc, iht.1]
    · rw [List.cons_append, List.dropWhile_cons, if_pos hc, iht.2]

/-- A `strtok` step on a non-empty token followed by a delimiter. -/
lemma tokenize_exact (delims : List Char) (a : List Char) (d : Char)
    (r : List Char) (ha : ¬ a = [])
    (hall : ∀ c ∈ a, delims.contains c = false)
    (hd : delims.contains d = true) :
    tokenize delims (a ++ d :: r) = some (a, d :: r) := by
  cases a with
  | nil => exact absurd rfl ha
  | cons c t =>
    have hc := hall c (List.mem_cons_self _ _)
    have htw := takeWhile_append_of (fun x => !delims.contains x) (c :: t) d r
      (by
        intro x hx
        show (!delims.contains x) = true
        rw [hall x hx]
        rfl)
      (by
        show (!delims.contains d) = false
        rw [hd]
        rfl)
    have hs1 : List.dropWhile (fun x => delims.contains x) ((c :: t) ++ d :: r)
        = (c :: t) ++ d :: r := by
      rw [List.cons_append, List.dropWhile_cons, if_neg]
      show ¬ (delims.contains c = true)
      rw [hc]
      simp
    unfold tokenize
    simp only []
    rw [hs1]
    rw [if_neg (by simp)]
    rw [htw.1, htw.2]

/-- A `strtok` step skips one leading delimiter. -/
lemma tokenize_skip (delims : List Char) (d0 : Char) (s : List Char)
    (h : delims.contains d0 = true) :
    tokenize delims (d0 :: s) = tokenize delims s := by
  unfold tokenize
  rw [List.dropWhile_cons, if_pos h]

/-- `parseFaiLine` on a well-shaped serialized line recovers the fields. -/
lemma parseFaiLine_shape (nm a b cc dd : List Char)
    (hnm : ¬ nm = []) (hnmt : ∀ c ∈ nm, c ≠ '\t')
    (ha : ¬ a = []) (hda : ∀ c ∈ a, '0' ≤ c ∧ c ≤ '9')
    (hb : ¬ b = []) (hdb : ∀ c ∈ b, '0' ≤ c ∧ c ≤ '9')
    (hc : ¬ cc = []) (hdc : ∀ c ∈ cc, '0' ≤ c ∧ c ≤ '9')
    (hd : ¬ dd = []) (hdd : ∀ c ∈ dd, '0' ≤ c ∧ c ≤ '9') :
    parseFaiLine (nm ++ '\t' :: (a ++ '\t' :: (b ++ '\t' :: (cc ++ '\t' :: (dd ++ ['\n'])))))
      = some ⟨nm, toU64 (atoll a), toU64 (atoll b), toU32 (atoll cc), toU32 (atoll dd)⟩ := by
  have cn : ∀ c ∈ nm, (['\t'] : List Char).contains c = false := by
    intro c hcm
    simp [hnmt c hcm]
  have ca : ∀ c ∈ a, (['\t'] : List Char).contains c = false := by
    intro c hcm
    simp [(digit_props c (hda c hcm)).2.1]
  have cb : ∀ c ∈ b, (['\t'] : List Char).contains c = false := by
    intro c hcm
    simp [(digit_props c (hdb c hcm)).2.1]
  have cc2 : ∀ c ∈ cc, (['\t'] : List Char).contains c = false := by
    intro c hcm
    simp [(digit_props c (hdc c hcm)).2.1]
  have cd : ∀ c ∈ dd, (['\t', '\n'] : List Char).contains c = false := by
    intro c hcm
    have hp := digit_props c (hdd c hcm)
    simp [hp.2.1, hp.2.2.1]
  unfold parseFaiLine
  rw [tokenize_exact ['\t'] nm '\t' _ hnm cn (by decide)]
  simp only []
  rw [tokenize_skip ['\t'] '\t' _ (by decide),
    tokenize_exact ['\t'] a '\t' _ ha ca (by decide)]
  simp only []
  rw [tokenize_skip ['\t'] '\t' _ (by decide),
    tokenize_exact ['\t'] b '\t' _ hb cb (by decide)]
  simp only []
  rw [tokenize_skip ['\t'] '\t' _ (by decide),
    tokenize_exact ['\t'] cc '\t' _ hc cc2 (by decide)]
  simp only []
  rw [tokenize_skip ['\t', '\n'] '\t' _ (by decide),
    tokenize_exact ['\t', '\n'] dd '\n' [] hd cd (by decide)]

/-- The fields that make a scanned record safely serializable and
re-parseable: non-empty tab/newline-free name of buffer size, values in
the unsigned ranges the loader stores. -/
def GoodTuple (t : FaiTuple) : Prop :=
  ¬ t.name = [] ∧ t.name.length ≤ 255 ∧ '\t' ∉ t.name ∧ '\n' ∉ t.name
  ∧ t.len < 2 ^ 63 ∧ t.seq_offset < 2 ^ 63 ∧ t.line_blen ≤ 1023 ∧ t.line_len ≤ 1023

lemma natDecGo_length_le : ∀ (k fuel n : Nat), n < fuel → n < 10 ^ k → 0 < k →
    (natDecGo fuel n).length ≤ k := by
  intro k
  induction k with
  | zero => intro fuel n _ _ hk; omega
  | succ k ih =>
    intro fuel n hfuel hn _
    cases fuel with
    | zero => omega
    | succ fuel =>
      rw [natDecGo]
      by_cases h10 : n < 10
      · rw [if_pos h10]
        simp only [List.length_cons, List.length_nil]
        omega
      · rw [if_neg h10]
        have hk : 0 < k := by
          by_contra hk0
          have : k = 0 := by omega
          subst this
          simp at hn
          omega
        have hdiv : n / 10 < 10 ^ k := by
          rw [Nat.div_lt_iff_lt_mul (by omega)]
          calc n < 10 ^ (k + 1) := hn
            _ = 10 ^ k * 10 := by rw [Nat.pow_succ]
        have := ih fuel (n / 10) (by omega) hdiv hk
        simp only [List.length_append, List.length_cons, List.length_nil]
        omega

lemma natDec_length_le (n k : Nat) (hn : n < 10 ^ k) (hk : 0 < k) :
    (natDec n).length ≤ k :=
  natDecGo_length_le k (n + 1) n (Nat.lt_succ_self n) hn hk

/-- The loaded records of a serialized tuple list, with dense ordinals. -/
def tuplesWithIds : List FaiTuple → Nat → List (List Char × Faidx1)
  | [], _ => []
  | t :: ts, idx => (t.name, tupleEntry t idx) :: tuplesWithIds ts (idx + 1)

lemma digits_no_nl (xs : List Char) (h : ∀ c ∈ xs, '0' ≤ c ∧ c ≤ '9') :
    '\n' ∉ xs := by
  intro hmem
  have := h '\n' hmem
  simp at this

lemma writeLine_no_inner_nl (t : FaiTuple) (hg : GoodTuple t) :
    ∃ core, writeLine t = core ++ ['\n'] ∧ '\n' ∉ core := by
  obtain ⟨hn1, hn2, hn3, hn4, h5, h6, h7, h8⟩ := hg
  obtain ⟨hne1, hd1, _⟩ := natDec_facts t.len
  obtain ⟨hne2, hd2, _⟩ := natDec_facts t.seq_offset
  obtain ⟨hne3, hd3, _⟩ := natDec_facts t.line_blen
  obtain ⟨hne4, hd4, _⟩ := natDec_facts t.line_len
  refine ⟨t.name ++ '\t' :: (natDec t.len ++ '\t' :: (natDec t.seq_offset ++ '\t' ::
    (natDec t.line_blen ++ '\t' :: natDec t.line_len))), ?_, ?_⟩
  · unfold writeLine
    simp
  · intro hmem
    simp only [List.mem_append, List.mem_cons] at hmem
    rcases hmem with h | h | h | h | h | h | h | h | h
    · exact hn4 h
    · simp at h
    · exact digits_no_nl _ hd1 h
    · simp at h
    · exact digits_no_nl _ hd2 h
    · simp at h
    · exact digits_no_nl _ hd3 h
    · simp at h
    · exact digits_no_nl _ hd4 h

lemma writeLine_length_le (t : FaiTuple) (hg : GoodTuple t) :
    (writeLine t).length ≤ 1023 := by
  obtain ⟨hn1, hn2, hn3, hn4, h5, h6, h7, h8⟩ := hg
  have d1 : (natDec t.len).length ≤ 19 := by
    apply natDec_length_le t.len 19 (by norm_num at h5 ⊢; omega) (by norm_num)
  have d2 : (natDec t.seq_offset).length ≤ 19 := by
    apply natDec_length_le t.seq_offset 19 (by norm_num at h6 ⊢; omega) (by norm_num)
  have d3 : (natDec t.line_blen).length ≤ 4 := by
    apply natDec_length_le t.line_blen 4 (by norm_num; omega) (by norm_num)
  have d4 : (natDec t.line_len).length ≤ 4 := by
    apply natDec_length_le t.line_len 4 (by norm_num; omega) (by norm_num)
  unfold writeLine
  simp only [List.length_append, List.length_cons, List.length_nil]
  omega

/-- The first line of a serialized tuple followed by more text is exactly
its own line. -/
lemma lineOf_core_append : ∀ (core : List Char), '\n' ∉ core → ∀ (r : List Char),
    lineOf (core ++ '\n' :: r) = core ++ ['\n'] ∧ restOf (core ++ '\n' :: r) = r := by
  intro core
  induction core with
  | nil =>
    intro _ r
    constructor
    · rw [List.nil_append, lineOf, if_pos rfl]
      rfl
    · rw [List.nil_append, restOf, if_pos rfl]
  | cons c t ih =>
    intro hmem r
    have hc : ¬ c = '\n' := fun h => hmem (by rw [h]; exact List.mem_cons_self _ _)
    have iht := ih (fun h => hmem (List.mem_cons_of_mem _ h)) r
    constructor
    · rw [List.cons_append, lineOf, if_neg hc, iht.1]
      rfl
    · rw [List.cons_append, restOf, if_neg hc, iht.2]

/-- Loading the serialization of good tuples recovers them in order with
dense ordinals (the directory round-trip workhorse). -/
lemma load_fai_writeAll : ∀ (ts : List FaiTuple) (idx : Nat),
    (∀ t ∈ ts, GoodTuple t) →
    load_fai_chunks ((ts.map writeLine).flatten) idx = tuplesWithIds ts idx := by
  intro ts
  induction ts with
  | nil =>
    intro idx _
    show load_fai_chunks [] idx = tuplesWithIds [] idx
    rw [load_fai_chunks, dif_pos rfl]
    rfl
  | cons t ts ih =>
    intro idx hall
    have hg := hall t (List.mem_cons_self _ _)
    obtain ⟨core, hcore, hnlc⟩ := writeLine_no_inner_nl t hg
    have hlen := writeLine_length_le t hg
    have happ : ((t :: ts).map writeLine).flatten
        = core ++ '\n' :: (ts.map writeLine).flatten := by
      simp only [List.map_cons, List.flatten_cons, hcore]
      simp
    have hlo := lineOf_core_append core hnlc ((ts.map writeLine).flatten)
    have hfg : fgets1023 (((t :: ts).map writeLine).flatten)
        = (writeLine t, (ts.map writeLine).flatten) := by
      rw [happ, fgets1023_of_short _ (by rw [hlo.1, ← hcore]; exact hlen),
        hlo.1, hlo.2, ← hcore]
    have hne : ¬ ((t :: ts).map writeLine).flatten = [] := by
      rw [happ]
      simp
    rw [load_fai_chunks, dif_neg hne, hfg]
    simp only []
    obtain ⟨hn1, hn2, hn3, hn4, h5, h6, h7, h8⟩ := hg
    obtain ⟨hne1, hd1, _⟩ := natDec_facts t.len
    obtain ⟨hne2, hd2, _⟩ := natDec_facts t.seq_offset
    obtain ⟨hne3, hd3, _⟩ := natDec_facts t.line_blen
    obtain ⟨hne4, hd4, _⟩ := natDec_facts t.line_len
    have hparse : parseFaiLine (writeLine t) = some t := by
      have hsh := parseFaiLine_shape t.name (natDec t.len) (natDec t.seq_offset)
        (natDec t.line_blen) (natDec t.line_len) hn1
        (fun c hcm h => hn3 (h ▸ hcm)) hne1 hd1 hne2 hd2 hne3 hd3 hne4 hd4
      rw [show writeLine t = t.name ++ '\t' :: (natDec t.len ++ '\t' ::
        (natDec t.seq_offset ++ '\t' :: (natDec t.line_blen ++ '\t' ::
        (natDec t.line_len ++ ['\n'])))) from rfl, hsh]
      rw [toU64_natDec t.len (by omega), toU64_natDec t.seq_offset (by omega),
        toU32_natDec t.line_blen (by omega), toU32_natDec t.line_len (by omega)]
    rw [hparse]
    simp only []
    rw [tuplesWithIds, ih (idx + 1) (fun x hx => hall x (List.mem_cons_of_mem _ hx))]

lemma extractName_no_stop (l : List Char) (c : Char) (h : c ∈ extractName l) :
    ¬ c = ' ' ∧ ¬ c = '\t' ∧ ¬ c = '\n' := by
  unfold extractName at h
  have hp := List.mem_takeWhile_imp h
  simp only [isNameStop, Bool.not_eq_true', Bool.or_eq_false_iff] at hp
  refine ⟨?_, ?_, ?_⟩
  · intro hc
    subst hc
    simp at hp
  · intro hc
    subst hc
    simp at hp
  · intro hc
    subst hc
    simp at hp

lemma basesIn_le_length (l : List Char) : basesIn l ≤ l.length := by
  unfold basesIn elide
  exact List.length_filter_le _ l

/-- Bounds invariant of the `create_fai_index` scan: every record it emits
has a non-empty bounded tab/newline-free name, geometry bounded by the
chunk buffer, and length/offset bounded by the scanned bytes. -/
lemma scanLines_bounds : ∀ (chunks : List (List Char)) (st : ScanState),
    (∀ l ∈ chunks, l.length ≤ 1023) →
    st.seq_name.length ≤ 255 → '\t' ∉ st.seq_name → '\n' ∉ st.seq_name →
    st.line_blen ≤ 1023 → st.line_len ≤ 1023 →
    st.seq_offset ≤ st.current_offset →
    ∀ t ∈ scanLines chunks st,
      ¬ t.name = [] ∧ t.name.length ≤ 255 ∧ '\t' ∉ t.name ∧ '\n' ∉ t.name
      ∧ t.len ≤ st.seq_len + (chunks.map List.length).sum
      ∧ t.seq_offset ≤ st.current_offset + (chunks.map List.length).sum
      ∧ t.line_blen ≤ 1023 ∧ t.line_len ≤ 1023 := by
  intro chunks
  induction chunks with
  | nil =>
    intro st _ hn1 hn2 hn3 hb1 hb2 hoff t ht
    rw [scanLines] at ht
    unfold pendingTuple at ht
    split at ht
    · rename_i hcnd
      simp only [Bool.and_eq_true, Bool.not_eq_true', List.isEmpty_eq_false] at hcnd
      rw [List.mem_singleton] at ht
      subst ht
      dsimp only
      simp only [List.map_nil, List.sum_nil, Nat.add_zero]
      exact ⟨hcnd.2, hn1, hn2, hn3, Nat.le_refl _, hoff, hb1, hb2⟩
    · simp at ht
  | cons l ls ih =>
    intro st hcl hn1 hn2 hn3 hb1 hb2 hoff t ht
    have hll : l.length ≤ 1023 := hcl l (List.mem_cons_self _ _)
    have hcl' : ∀ m ∈ ls, m.length ≤ 1023 := fun m hm => hcl m (List.mem_cons_of_mem _ hm)
    rw [scanLines] at ht
    unfold stepChunk at ht
    split at ht
    · -- header chunk
      dsimp only at ht
      rcases List.mem_append.mp ht with hmem | hmem
      · unfold pendingTuple at hmem
        split at hmem
        · rename_i hcnd
          simp only [Bool.and_eq_true, Bool.not_eq_true', List.isEmpty_eq_false] at hcnd
          rw [List.mem_singleton] at hmem
          subst hmem
          dsimp only
          simp only [List.map_cons, List.sum_cons]
          refine ⟨hcnd.2, hn1, hn2, hn3, ?_, ?_, hb1, hb2⟩
          · omega
          · omega
        · simp at hmem
      · have hname : ((extractName l).take 255).length ≤ 255 := by
          rw [List.length_take]
          omega
        have htab : '\t' ∉ (extractName l).take 255 := fun hmm =>
          (extractName_no_stop l '\t' (List.mem_of_mem_take hmm)).2.1 rfl
        have hnl2 : '\n' ∉ (extractName l).take 255 := fun hmm =>
          (extractName_no_stop l '\n' (List.mem_of_mem_take hmm)).2.2 rfl
        have hres := ih ⟨(extractName l).take 255, 0, st.current_offset + l.length,
            0, 0, true, st.current_offset + l.length⟩ hcl' hname htab hnl2
            (by dsimp only; omega) (by dsimp only; omega) (Nat.le_refl _) t hmem
        dsimp only at hres
        simp only [List.map_cons, List.sum_cons]
        refine ⟨hres.1, hres.2.1, hres.2.2.1, hres.2.2.2.1, ?_, ?_, hres.2.2.2.2.2.2⟩
        · have := hres.2.2.2.2.1
          omega
        · have := hres.2.2.2.2.2.1
          omega
    · split at ht
      · -- body chunk
        dsimp only at ht
        rw [List.nil_append] at ht
        have hbase := basesIn_le_length l
        have hres := ih ⟨st.seq_name, st.seq_len + basesIn l, st.seq_offset,
            (if st.line_blen = 0 then basesIn l else st.line_blen),
            (if st.line_blen = 0 then l.length else st.line_len),
            st.in_sequence, st.current_offset + l.length⟩ hcl' hn1 hn2 hn3
            (by
              dsimp only
              split
              · omega
              · exact hb1)
            (by
              dsimp only
              split
              · omega
              · exact hb2)
            (by
              dsimp only
              omega) t ht
        dsimp only at hres
        simp only [List.map_cons, List.sum_cons]
        refine ⟨hres.1, hres.2.1, hres.2.2.1, hres.2.2.2.1, ?_, ?_, hres.2.2.2.2.2.2⟩
        · have := hres.2.2.2.2.1
          omega
        · have := hres.2.2.2.2.2.1
          omega
      · -- skipped chunk
        dsimp only at ht
        rw [List.nil_append] at ht
        have hres := ih ⟨st.seq_name, st.seq_len, st.seq_offset, st.line_blen,
            st.line_len, st.in_sequence, st.current_offset + l.length⟩ hcl' hn1 hn2 hn3
            (by dsimp only; exact hb1) (by dsimp only; exact hb2)
            (by dsimp only; omega) t ht
        dsimp only at hres
        simp only [List.map_cons, List.sum_cons]
        refine ⟨hres.1, hres.2.1, hres.2.2.1, hres.2.2.2.1, ?_, ?_, hres.2.2.2.2.2.2⟩
        · have := hres.2.2.2.2.1
          omega
        · have := hres.2.2.2.2.2.1
          omega

lemma map_tuplesWithIds : ∀ (ts : List FaiTuple) (idx : Nat),
    (tuplesWithIds ts idx).map entryTuple = ts := by
  intro ts
  induction ts with
  | nil => intro idx; rfl
  | cons t ts ih =>
    intro idx
    rw [tuplesWithIds, List.map_cons, ih (idx + 1)]
    rfl

/-- C5 amended.  For a source whose lines fit the 1023-byte read buffer,
whose header names are non-empty and at most 255 characters after
whitespace truncation, whose non-header lines begin with a non-terminator
character, which contains no NUL byte and is smaller than `2^63` bytes:
building the directory with `create_fai_index` and loading it with
`load_fai_index` yields exactly the `(name, length, seq_offset,
line_bases, line_bytes)` tuples of the direct line-level scan. -/
theorem C5_directory_roundtrip (src : List Char)
    (hlen : ∀ l ∈ splitLines src, l.length ≤ 1023)
    (hbody : ∀ l ∈ splitLines src, isHeader l = false →
      ¬ l.head? = some '\n' ∧ ¬ l.head? = some '\r')
    (hnm : ∀ l ∈ splitLines src, isHeader l = true →
      ¬ extractName l = [] ∧ (extractName l).length ≤ 255)
    (hsz : src.length < 2 ^ 63)
    (hnul : Char.ofNat 0 ∉ src) :
    (load_fai_chunks (create_fai_index src) 0).map entryTuple
      = directScan (splitLines src) 0 := by
  have hscan := create_scan_eq_direct src hlen hbody hnm
  have hgood : ∀ t ∈ scanLines (chunksOf src) initScan, GoodTuple t := by
    intro t ht
    have hb := scanLines_bounds (chunksOf src) initScan
      (mem_chunksOf_length_le src.length src (Nat.le_refl _))
      (by simp [initScan]) (by simp [initScan]) (by simp [initScan])
      (by simp [initScan]) (by simp [initScan]) (by simp [initScan]) t ht
    have hsum := chunksOf_sum_length src.length src (Nat.le_refl _)
    have hlt : t.len ≤ src.length := by
      have := hb.2.2.2.2.1
      rw [hsum] at this
      simpa [initScan] using this
    have hot : t.seq_offset ≤ src.length := by
      have := hb.2.2.2.2.2.1
      rw [hsum] at this
      simpa [initScan] using this
    exact ⟨hb.1, hb.2.1, hb.2.2.1, hb.2.2.2.1, by omega, by omega,
      hb.2.2.2.2.2.2.1, hb.2.2.2.2.2.2.2⟩
  unfold create_fai_index
  rw [load_fai_writeAll _ 0 hgood, map_tuplesWithIds, hscan]

def c5src : List Char := ">\nA\n".toList

/-- C5 counterexample.  The claim's direct scan produces one record per
header line, but `create_fai_index` silently drops a record whose name is
empty (`seq_name[0]` check, faigz_minimal.c:98,143): on the source
`">\nA\n"` the direct scan yields one (empty-named) record while
build-then-load yields none. -/
theorem C5_counterexample :
    ¬ ((load_fai_chunks (create_fai_index c5src) 0).map entryTuple
      = directScan (splitLines c5src) 0) := by
  have hch : chunksOf c5src = ['>' :: ['\n'], 'A' :: ['\n']] := by
    rw [chunksOf, dif_neg (by decide), chunksOf, dif_neg (by decide),
      chunksOf, dif_pos (by decide)]
    decide
  have hcreate : create_fai_index c5src = [] := by
    unfold create_fai_index
    rw [hch]
    rfl
  have hload : load_fai_chunks (create_fai_index c5src) 0 = [] := by
    rw [hcreate, load_fai_chunks, dif_pos rfl]
  have hsp : splitLines c5src = ['>' :: ['\n'], 'A' :: ['\n']] := by
    rw [splitLines, dif_neg (by decide), splitLines, dif_neg (by decide),
      splitLines, dif_pos (by decide)]
    decide
  rw [hload, hsp, directScan_header _ _ 0 (by decide)]
  intro hcon
  simp at hcon

def w5src : List Char := ">s1 x\nACGT\nAC\n>s2\nTT\n".toList

theorem C5_witness :
    (load_fai_chunks (create_fai_index w5src) 0).map entryTuple
      = directScan (splitLines w5src) 0 := by
  have hsp5 : splitLines w5src = [">s1 x\n".toList, "ACGT\n".toList, "AC\n".toList,
      ">s2\n".toList, "TT\n".toList] := by
    rw [splitLines, dif_neg (by decide), splitLines, dif_neg (by decide),
      splitLines, dif_neg (by decide), splitLines, dif_neg (by decide),
      splitLines, dif_neg (by decide), splitLines, dif_pos (by decide)]
    decide
  exact C5_directory_roundtrip w5src
    (by rw [hsp5]; decide) (by rw [hsp5]; decide) (by rw [hsp5]; decide)
    (by decide) (by decide)

/-- Loading a chunk stream whose lines fit the buffer keeps exactly the
lines the five-field parse accepts, in order. -/
lemma load_fai_eq_filterMap : ∀ (n : Nat) (s : List Char), s.length ≤ n →
    (∀ l ∈ splitLines s, l.length ≤ 1023) →
    ∀ idx, (load_fai_chunks s idx).map entryTuple
      = (splitLines s).filterMap parseFaiLine := by
  intro n
  induction n with
  | zero =>
    intro s hs _ idx
    have h : s = [] := by
      cases s with
      | nil => rfl
      | cons c t => simp at hs
    subst h
    rw [splitLines_nil, load_fai_chunks, dif_pos rfl]
    rfl
  | succ n ih =>
    intro s hs hlen idx
    by_cases h : s = []
    · subst h
      rw [splitLines_nil, load_fai_chunks, dif_pos rfl]
      rfl
    · have hline : (lineOf s).length ≤ 1023 := by
        apply hlen
        rw [splitLines_cons s h]
        exact List.mem_cons_self _ _
      have hrest : (restOf s).length ≤ n := by
        have := restOf_length_lt s h
        omega
      have hlen' : ∀ l ∈ splitLines (restOf s), l.length ≤ 1023 := by
        intro l hl
        apply hlen
        rw [splitLines_cons s h]
        exact List.mem_cons_of_mem _ hl
      rw [load_fai_chunks, dif_neg h, fgets1023_of_short s hline,
        splitLines_cons s h, List.filterMap_cons]
      dsimp only
      cases hp : parseFaiLine (lineOf s) with
      | none =>
        simp only [hp]
        exact ih (restOf s) hrest hlen' idx
      | some t =>
        simp only [hp, List.map_cons]
        rw [ih (restOf s) hrest hlen' (idx + 1)]
        rfl

/-- The loader assigns dense ordinals in order of appearance. -/
lemma load_fai_ids : ∀ (n : Nat) (s : List Char), s.length ≤ n → ∀ idx,
    (load_fai_chunks s idx).map (fun p => p.2.id)
      = List.range' idx (load_fai_chunks s idx).length := by
  intro n
  induction n with
  | zero =>
    intro s hs idx
    have h : s = [] := by
      cases s with
      | nil => rfl
      | cons c t => simp at hs
    subst h
    rw [load_fai_chunks, dif_pos rfl]
    rfl
  | succ n ih =>
    intro s hs idx
    by_cases h : s = []
    · subst h
      rw [load_fai_chunks, dif_pos rfl]
      rfl
    · have hrest : (fgets1023 s).2.length ≤ n := by
        have := fgets1023_snd_length_lt s h
        omega
      rw [load_fai_chunks, dif_neg h]
      cases hp : parseFaiLine (fgets1023 s).1 with
      | none =>
        simp only [hp]
        exact ih (fgets1023 s).2 hrest idx
      | some t =>
        simp only [hp, List.map_cons, List.length_cons]
        rw [ih (fgets1023 s).2 hrest (idx + 1), List.range'_succ]
        rfl

/-- C6 amended.  For a directory index file whose lines fit the 1023-byte
read buffer and which contains no NUL byte: the loader never fails, it
keeps exactly the lines with five `strtok` fields (in order of
appearance), assigns dense ids 0,1,2,…, and the sequence count equals the
number of well-formed lines. -/
theorem C6_load_skips_malformed (file : List Char)
    (hlen : ∀ l ∈ splitLines file, l.length ≤ 1023)
    (hnul : Char.ofNat 0 ∉ file) :
    (load_fai_chunks file 0).map entryTuple = (splitLines file).filterMap parseFaiLine
    ∧ (load_fai_chunks file 0).map (fun p => p.2.id)
      = List.range (load_fai_chunks file 0).length
    ∧ faidx_meta_nseq (buildMeta (load_fai_chunks file 0) false none)
      = ((splitLines file).filterMap parseFaiLine).length := by
  have h1 := load_fai_eq_filterMap file.length file (Nat.le_refl _) hlen 0
  have h2 := load_fai_ids file.length file (Nat.le_refl _) 0
  refine ⟨h1, ?_, ?_⟩
  · rw [h2, List.range_eq_range']
  · show (load_fai_chunks file 0).length
      = ((splitLines file).filterMap parseFaiLine).length
    rw [← h1, List.length_map]

def c6file : List Char :=
  List.replicate 600 'a' ++ '\t' :: (List.replicate 600 'b' ++ "\tc\td\te\n".toList)

def c6chunk1 : List Char := List.replicate 600 'a' ++ '\t' :: List.replicate 422 'b'

def c6chunk2 : List Char := List.replicate 178 'b' ++ "\tc\td\te\n".toList

def c6core : List Char :=
  List.replicate 600 'a' ++ '\t' :: (List.replicate 600 'b' ++ "\tc\td\te".toList)

lemma not_mem_replicate (c a : Char) (h : ¬ c = a) (n : Nat) :
    c ∉ List.replicate n a := by
  intro hm
  rw [List.mem_replicate] at hm
  exact h hm.2

lemma takeWhile_all (p : Char → Bool) : ∀ (a : List Char),
    (∀ c ∈ a, p c = true) → (a.takeWhile p = a ∧ a.dropWhile p = []) := by
  intro a
  induction a with
  | nil => intro _; exact ⟨rfl, rfl⟩
  | cons c t ih =>
    intro hall
    have hc := hall c (List.mem_cons_self _ _)
    have iht := ih fun x hx => hall x (List.mem_cons_of_mem _ hx)
    constructor
    · rw [List.takeWhile_cons, if_pos hc, iht.1]
    · rw [List.dropWhile_cons, if_pos hc, iht.2]

/-- A `strtok` step on a trailing token with no delimiter after it. -/
lemma tokenize_last (delims : List Char) (a : List Char) (ha : ¬ a = [])
    (hall : ∀ c ∈ a, delims.contains c = false) :
    tokenize delims a = some (a, []) := by
  cases a with
  | nil => exact absurd rfl ha
  | cons c t =>
    have hc := hall c (List.mem_cons_self _ _)
    have htw := takeWhile_all (fun x => !delims.contains x) (c :: t)
      (by
        intro x hx
        show (!delims.contains x) = true
        rw [hall x hx]
        rfl)
    have hs1 : List.dropWhile (fun x => delims.contains x) (c :: t) = c :: t := by
      rw [List.dropWhile_cons, if_neg]
      show ¬ (delims.contains c = true)
      rw [hc]
      simp
    unfold tokenize
    simp only []
    rw [hs1, if_neg (by simp), htw.1, htw.2]

/-- `fgets` on a stream with no newline among its first `n` characters
reads exactly `n` characters. -/
lemma fgetsGo_no_nl : ∀ (n : Nat) (s : List Char), '\n' ∉ s.take n →
    fgetsGo n s = (s.take n, s.drop n) := by
  intro n
  induction n with
  | zero => intro s _; simp [fgetsGo]
  | succ n ih =>
    intro s hnl
    cases s with
    | nil => simp [fgetsGo]
    | cons c t =>
      have hc : ¬ c = '\n' := by
        intro h
        apply hnl
        rw [List.take_succ_cons, h]
        exact List.mem_cons_self _ _
      rw [fgetsGo, if_neg hc, List.take_succ_cons, List.drop_succ_cons]
      have iht := ih t (by
        intro hm
        exact hnl (by rw [List.take_succ_cons]; exact List.mem_cons_of_mem _ hm))
      simp [iht]

lemma replicate_ne_nil (n : Nat) (a : Char) (h : 0 < n) :
    ¬ List.replicate n a = [] := by
  intro he
  have hl := congrArg List.length he
  rw [List.length_replicate] at hl
  simp at hl
  omega

lemma c6_split : c6file = c6chunk1 ++ c6chunk2 := by
  unfold c6file c6chunk1 c6chunk2
  have hb : List.replicate 600 'b' = List.replicate 422 'b' ++ List.replicate 178 'b' := by
    rw [← List.replicate_add]
  rw [hb, List.append_assoc (List.replicate 422 'b'),
    List.append_assoc (List.replicate 600 'a'), List.cons_append]

lemma c6chunk1_length : c6chunk1.length = 1023 := by
  unfold c6chunk1
  rw [List.length_append, List.length_cons, List.length_replicate, List.length_replicate]

lemma c6_no_nl_chunk1 : '\n' ∉ c6chunk1 := by
  unfold c6chunk1
  intro h
  rcases List.mem_append.mp h with h1 | h1
  · exact not_mem_replicate '\n' 'a' (by decide) 600 h1
  · rcases List.mem_cons.mp h1 with h2 | h2
    · exact absurd h2 (by decide)
    · exact not_mem_replicate '\n' 'b' (by decide) 422 h2

lemma c6_no_nl_core : '\n' ∉ c6core := by
  unfold c6core
  intro h
  rcases List.mem_append.mp h with h1 | h1
  · exact not_mem_replicate '\n' 'a' (by decide) 600 h1
  · rcases List.mem_cons.mp h1 with h2 | h2
    · exact absurd h2 (by decide)
    · rcases List.mem_append.mp h2 with h3 | h3
      · exact not_mem_replicate '\n' 'b' (by decide) 600 h3
      · exact absurd h3 (by decide)

lemma c6_core_split : c6file = c6core ++ '\n' :: [] := by
  unfold c6file c6core
  have hT : "\tc\td\te\n".toList = "\tc\td\te".toList ++ ['\n'] := by decide
  rw [hT, List.append_assoc (List.replicate 600 'a'), List.cons_append,
    List.append_assoc (List.replicate 600 'b')]

lemma c6file_ne_nil : ¬ c6file = [] := by
  intro h
  rw [c6_core_split, List.append_eq_nil] at h
  exact List.noConfusion h.2

lemma c6_splitLines : splitLines c6file = [c6file] := by
  have hlo := lineOf_core_append c6core c6_no_nl_core []
  rw [splitLines, dif_neg c6file_ne_nil]
  rw [c6_core_split, hlo.1, hlo.2, splitLines_nil]

lemma c6_fgets : fgets1023 c6file = (c6chunk1, c6chunk2) := by
  have hnl : '\n' ∉ c6file.take 1023 := by
    rw [c6_split, ← c6chunk1_length, List.take_left]
    exact c6_no_nl_chunk1
  unfold fgets1023
  rw [fgetsGo_no_nl 1023 c6file hnl]
  rw [c6_split, ← c6chunk1_length, List.take_left, List.drop_left]

lemma c6_parse_chunk1 : parseFaiLine c6chunk1 = none := by
  have hall_a : ∀ c ∈ List.replicate 600 'a', (['\t'] : List Char).contains c = false := by
    intro c hc
    rw [List.mem_replicate] at hc
    rw [hc.2]
    decide
  have hall_b : ∀ c ∈ List.replicate 422 'b', (['\t'] : List Char).contains c = false := by
    intro c hc
    rw [List.mem_replicate] at hc
    rw [hc.2]
    decide
  have t1 : tokenize ['\t'] c6chunk1
      = some (List.replicate 600 'a', '\t' :: List.replicate 422 'b') :=
    tokenize_exact _ _ _ _ (replicate_ne_nil 600 'a' (by decide)) hall_a (by decide)
  have t2 : tokenize ['\t'] (List.replicate 422 'b')
      = some (List.replicate 422 'b', []) :=
    tokenize_last _ _ (replicate_ne_nil 422 'b' (by decide)) hall_b
  unfold parseFaiLine
  rw [t1]
  simp only []
  rw [tokenize_skip ['\t'] '\t' _ (by decide), t2]
  rfl

lemma c6_rest_ne_nil : ¬ c6chunk2 = [] := by decide

set_option maxRecDepth 4000 in
lemma c6_fgets2 : fgets1023 c6chunk2 = (c6chunk2, []) := by decide

set_option maxRecDepth 4000 in
lemma c6_parse_chunk2 : parseFaiLine c6chunk2 = none := by decide

lemma c6_load : load_fai_chunks c6file 0 = [] := by
  rw [load_fai_chunks, dif_neg c6file_ne_nil, c6_fgets]
  dsimp only
  rw [c6_parse_chunk1]
  rw [load_fai_chunks, dif_neg c6_rest_ne_nil, c6_fgets2]
  dsimp only
  rw [c6_parse_chunk2]
  rw [load_fai_chunks, dif_pos rfl]

lemma c6_parse_whole : parseFaiLine c6file
    = some ⟨List.replicate 600 'a', 0, 0, 0, 0⟩ := by
  have hall_a : ∀ c ∈ List.replicate 600 'a', (['\t'] : List Char).contains c = false := by
    intro c hc
    rw [List.mem_replicate] at hc
    rw [hc.2]
    decide
  have hall_b : ∀ c ∈ List.replicate 600 'b', (['\t'] : List Char).contains c = false := by
    intro c hc
    rw [List.mem_replicate] at hc
    rw [hc.2]
    decide
  have hT : c6file = List.replicate 600 'a'
      ++ '\t' :: (List.replicate 600 'b' ++ '\t' :: "c\td\te\n".toList) := by
    unfold c6file
    have : "\tc\td\te\n".toList = '\t' :: "c\td\te\n".toList := by decide
    rw [this]
  have t1 : tokenize ['\t'] c6file = some (List.replicate 600 'a',
      '\t' :: (List.replicate 600 'b' ++ '\t' :: "c\td\te\n".toList)) := by
    rw [hT]
    exact tokenize_exact _ _ _ _ (replicate_ne_nil 600 'a' (by decide)) hall_a (by decide)
  have t2 : tokenize ['\t'] (List.replicate 600 'b' ++ '\t' :: "c\td\te\n".toList)
      = some (List.replicate 600 'b', '\t' :: "c\td\te\n".toList) :=
    tokenize_exact _ _ _ _ (replicate_ne_nil 600 'b' (by decide)) hall_b (by decide)
  unfold parseFaiLine
  rw [t1]
  simp only []
  rw [tokenize_skip ['\t'] '\t' _ (by decide), t2]
  simp only []
  rw [tokenize_skip ['\t'] '\t' _ (by decide)]
  have t3 : tokenize ['\t'] ("c\td\te\n".toList) = some (['c'], '\t' :: "d\te\n".toList) := by
    decide
  rw [t3]
  simp only []
  rw [tokenize_skip ['\t'] '\t' _ (by decide)]
  have t4 : tokenize ['\t'] ("d\te\n".toList) = some (['d'], '\t' :: "e\n".toList) := by
    decide
  rw [t4]
  simp only []
  rw [tokenize_skip ['\t', '\n'] '\t' _ (by decide)]
  have t5 : tokenize ['\t', '\n'] ("e\n".toList) = some (['e'], ['\n']) := by decide
  rw [t5]
  simp only []
  have hvb : toU64 (atoll (List.replicate 600 'b')) = 0 := by decide
  have hvc : toU64 (atoll ['c']) = 0 := by decide
  have hvd : toU32 (atoll ['d']) = 0 := by decide
  have hve : toU32 (atoll ['e']) = 0 := by decide
  rw [hvb, hvc, hvd, hve]

/-- C6 counterexample.  A 1208-byte directory line with five tab-separated
fields is split by the 1023-byte `fgets` buffer into two chunks, both of
which fail the five-field parse, so the loader drops a line the claim
counts as well-formed: the load yields no records while the line-level
filter keeps one. -/
theorem C6_counterexample :
    ¬ ((load_fai_chunks c6file 0).map entryTuple
      = (splitLines c6file).filterMap parseFaiLine) := by
  intro hcon
  rw [c6_load, c6_splitLines, List.filterMap_cons, c6_parse_whole] at hcon
  simp only [List.map_nil] at hcon
  exact List.noConfusion hcon

def w6file : List Char := "s1\t4\t3\t4\t5\nbad\ns2\t2\t10\t2\t3\n".toList

theorem C6_witness :
    (load_fai_chunks w6file 0).map entryTuple
      = (splitLines w6file).filterMap parseFaiLine
    ∧ (load_fai_chunks w6file 0).map (fun p => p.2.id)
      = List.range (load_fai_chunks w6file 0).length
    ∧ faidx_meta_nseq (buildMeta (load_fai_chunks w6file 0) false none)
      = ((splitLines w6file).filterMap parseFaiLine).length := by
  have hsp6 : splitLines w6file = ["s1\t4\t3\t4\t5\n".toList, "bad\n".toList,
      "s2\t2\t10\t2\t3\n".toList] := by
    rw [splitLines, dif_neg (by decide), splitLines, dif_neg (by decide),
      splitLines, dif_neg (by decide), splitLines, dif_pos (by decide)]
    decide
  exact C6_load_skips_malformed w6file (by rw [hsp6]; decide) (by decide)

/-- C7. Acquiring metadata for a compressed source whose block-offset file
is absent or unloadable still succeeds, name lookup behaves exactly as on
an uncompressed source, but every fetch over that metadata returns
NotFound — for every stream content (the stream is never consulted). -/
theorem C7_missing_gzi (content : List Char) :
    faidx_meta_load_model (some content) true none
      = some (buildMeta (load_fai_chunks content 0) true none)
    ∧ (buildMeta (load_fai_chunks content 0) true none).gzi_index = none
    ∧ (∀ (file u name : List Char) (beg pend : Int),
        faidx_reader_fetch_seq (buildMeta (load_fai_chunks content 0) true none)
          file u name beg pend = none)
    ∧ (∀ name, faidx_meta_seq_len (buildMeta (load_fai_chunks content 0) true none) name
        = faidx_meta_seq_len (buildMeta (load_fai_chunks content 0) false none) name)
    ∧ (∀ name, faidx_meta_has_seq (buildMeta (load_fai_chunks content 0) true none) name
        = faidx_meta_has_seq (buildMeta (load_fai_chunks content 0) false none) name) := by
  refine ⟨rfl, rfl, ?_, fun name => rfl, fun name => rfl⟩
  intro file u name beg pend
  simp only [faidx_reader_fetch_seq]
  cases hh : hash_get (buildMeta (load_fai_chunks content 0) true none).hash name with
  | none => rfl
  | some entry =>
    simp only []
    split
    · rfl
    · rfl

/-- C8. The reference-count lifecycle: a load starts the count at 1, each
share adds exactly 1 and returns the same object, and for every `k` the
trace of one load, `k` shares and `k + 1` releases frees the object
exactly once (final count 0, exactly one free). -/
theorem C8_refcount_lifecycle :
    (∀ (content : List Char) (b : Bool) (g : Option (List GziEntry)),
      (faidx_meta_load_model (some content) b g).map (fun m => m.ref_count) = some 1)
    ∧ (∀ m : FaidxMeta, faidx_meta_ref m = { m with ref_count := m.ref_count + 1 })
    ∧ (∀ k : Nat,
        runOps (List.replicate k MetaOp.share ++ List.replicate (k + 1) MetaOp.release) 1
          = (0, 1)) := by
  refine ⟨fun content b g => rfl, fun m => rfl, ?_⟩
  have happ : ∀ (a b : List MetaOp) (rc : Int), runOps (a ++ b) rc
      = ((runOps b (runOps a rc).1).1, (runOps a rc).2 + (runOps b (runOps a rc).1).2) := by
    intro a
    induction a with
    | nil =>
      intro b rc
      simp [runOps]
    | cons op a ih =>
      intro b rc
      cases op with
      | share =>
        rw [List.cons_append, runOps, runOps, ih]
      | release =>
        rw [List.cons_append, runOps, runOps, ih]
        dsimp only
        rw [Nat.add_assoc]
  have hshares : ∀ (k : Nat) (rc : Int),
      runOps (List.replicate k MetaOp.share) rc = (rc + k, 0) := by
    intro k
    induction k with
    | zero =>
      intro rc
      simp [runOps]
    | succ k ih =>
      intro rc
      rw [List.replicate_succ, runOps, ih]
      simp only [Prod.mk.injEq]
      refine ⟨?_, trivial⟩
      push_cast
      omega
  have hreleases : ∀ (k : Nat),
      runOps (List.replicate (k + 1) MetaOp.release) ((k : Int) + 1) = (0, 1) := by
    intro k
    induction k with
    | zero => decide
    | succ k ih =>
      rw [List.replicate_succ, runOps]
      have hc : (((k : Nat) + 1 : Nat) : Int) + 1 - 1 = (k : Int) + 1 := by
        push_cast
        omega
      rw [hc, ih]
      rw [if_neg (show ¬ ((k : Int) + 1 ≤ 0) by omega)]
      decide
  intro k
  rw [happ, hshares]
  simp only []
  have h1k : (1 : Int) + (k : Int) = (k : Int) + 1 := by omega
  rw [h1k, hreleases k]
  decide

end Faigz
